import Mathlib

/-!
# homebithub/website: static server with SPA fallback (`main.go`)

A shallow embedding of `main.go` and of the parts of Go's standard library it
calls (`path/filepath.Clean`, `filepath.Join`, `filepath.Split`,
`strings.TrimPrefix`, `http.StripPrefix`, `http.FileServer`, `http.ServeFile`),
followed by theorems about the
resolver and the header policy.

Conventions.
* Go strings are byte strings; the only bytes the modelled code inspects are
  `/` and `.`, so strings are modelled as Lean strings and processed through
  their character lists.  The platform is Unix: the separator is `/` and there
  are no volume names, so `path.Clean` and `filepath.Clean` coincide.
* A handler is a function of the response writer, the request and the state of
  the filesystem, returning the response writer it leaves behind.
* The file serving of `net/http` (`http.ServeFile`, `http.FileServer`) is
  modelled up to the opening of the file; what it answers, or which file it
  goes on to stream, is recorded in the field `served` of the response writer.
  The streaming itself (`serveContent`: content type, ranges, conditional
  requests) and the headers the library adds are outside the embedding.
-/

namespace Homebit

/-! ## Strings -/

/-- Go `strings.HasPrefix`. -/
def HasPrefix (s pre : String) : Bool := pre.data.isPrefixOf s.data

/-- Go `strings.HasSuffix`. -/
def HasSuffix (s suf : String) : Bool := suf.data.reverse.isPrefixOf s.data.reverse

/-- Go `strings.TrimPrefix`: `s` without the leading `pre`, or `s` itself when
`s` does not start with `pre`. -/
def TrimPrefix (s pre : String) : String :=
  if HasPrefix s pre then String.mk (s.data.drop pre.data.length) else s

/-! ## `path/filepath.Clean` and `filepath.Join` (Unix) -/

/-- The backtracking of the `..` case of `Clean`,
`out.w--; for out.w > dotdot && !os.IsPathSeparator(out.index(out.w)) { out.w-- }`.
The buffer `out[0 .. out.w)` is kept as the list of its bytes in reverse order,
so `out.w` is the length of the list and, after a decrement, `out.index(out.w)`
is the byte that was just dropped. -/
def backtrack (dotdot : Nat) : List Char → List Char
  | [] => []
  | c :: out => if dotdot < out.length ∧ c ≠ '/' then backtrack dotdot out else out

/-- The default case of the loop, "add slash if needed":
`if rooted && out.w != 1 || !rooted && out.w != 0 { out.append(Separator) }`. -/
def addSlash (rooted : Bool) (out : List Char) : List Char :=
  if (rooted = true ∧ out.length ≠ 1) ∨ (rooted = false ∧ out.length ≠ 0) then '/' :: out
  else out

/-- The `..` case of the loop on a path that is not rooted, when the buffer
cannot backtrack:
`if out.w > 0 { out.append(Separator) }; out.append('.'); out.append('.')`. -/
def appendDotDot (out : List Char) : List Char :=
  '.' :: '.' :: (if 0 < out.length then '/' :: out else out)

/-- The main loop `for r < n { switch { ... } }` of `Clean`.  Arguments: whether
the path is rooted, the fuel, the unread part `path[r:]`, the reversed output
buffer and `dotdot`.  Every iteration reads at least one byte, so fuel equal to
the length of the unread part is enough (`cleanLoop_fuel`). -/
def cleanLoop (rooted : Bool) : Nat → List Char → List Char → Nat → List Char
  | 0, _, out, _ => out
  | _ + 1, [], out, _ => out
  | fuel + 1, c :: rest, out, dotdot =>
    if c = '/' then
      -- empty path element
      cleanLoop rooted fuel rest out dotdot
    else if c = '.' ∧ (rest = [] ∨ rest.head? = some '/') then
      -- . element
      cleanLoop rooted fuel rest out dotdot
    else if c = '.' ∧ rest.head? = some '.' ∧
        (rest.tail = [] ∨ rest.tail.head? = some '/') then
      -- .. element: remove to last separator
      if dotdot < out.length then
        -- can backtrack
        cleanLoop rooted fuel rest.tail (backtrack dotdot out) dotdot
      else if rooted = false then
        -- cannot backtrack, but not rooted, so append .. element; dotdot = out.w
        cleanLoop rooted fuel rest.tail (appendDotDot out) (appendDotDot out).length
      else
        cleanLoop rooted fuel rest.tail out dotdot
    else
      -- real path element: add slash if needed, copy element
      cleanLoop rooted fuel ((c :: rest).dropWhile (fun x => x ≠ '/'))
        (((c :: rest).takeWhile (fun x => x ≠ '/')).reverse ++ addSlash rooted out) dotdot

/-- Go `filepath.Clean` on the bytes of the path. -/
def cleanChars (path : List Char) : List Char :=
  if path = [] then ['.']
  else
    let out :=
      if path.head? = some '/' then cleanLoop true path.length path.tail ['/'] 1
      else cleanLoop false path.length path [] 0
    -- Turn empty string into "."
    if out = [] then ['.'] else out.reverse

/-- Go `filepath.Clean` (and `path.Clean`). -/
def Clean (path : String) : String := String.mk (cleanChars path.data)

/-- Go `filepath.Join` of two elements: the elements from the first non-empty
one on are joined with `/` and cleaned; the result is empty when both are. -/
def Join (a b : String) : String :=
  if a ≠ "" then Clean (a ++ "/" ++ b)
  else if b ≠ "" then Clean b
  else ""

/-! ## Filesystem, request and response writer -/

/-- What `os.Stat` (or `os.Open` followed by `Stat`) finds at a path. -/
inductive StatResult
  | notExist
  | permission
  | otherError
  | file
  | dir
  deriving DecidableEq, Repr

/-- The state of the filesystem, as seen through `os.Stat`. -/
abbrev FileSystem := String → StatResult

/-- The part of `net/url.URL` the program reads. -/
structure URL where
  Path : String
  RawPath : String
  RawQuery : String
  deriving DecidableEq, Repr

/-- The `http.Header` map, as an association list with one value per key. -/
abbrev Header := List (String × String)

/-- An `http.Request`. -/
structure Request where
  Method : String
  URL : URL
  Header : Header
  Body : String
  deriving DecidableEq, Repr

/-- Go `Header.Set`: the key gets this value and no other. -/
def Header.Set (h : Header) (key value : String) : Header :=
  (key, value) :: h.filter (fun kv => kv.1 ≠ key)

/-- Go `Header.Get`, with `none` for a key that is absent. -/
def Header.Get (h : Header) (key : String) : Option String :=
  h.lookup key

/-- What the file serving of the standard library did with the request. -/
inductive Served
  /-- Result of `http.ServeFile`: it opened the regular file `name` and streams
  it (`serveContent`). -/
  | file (name : String)
  /-- The library opened `name` and goes on with it: for the file server a
  file or a directory, for `http.ServeFile` a directory. -/
  | opened (name : String)
  /-- The library answered with a redirect (301). -/
  | redirect
  /-- The library answered with `http.Error` and this status. -/
  | error (code : Nat)
  deriving DecidableEq, Repr

/-- An `http.ResponseWriter`: the header map, the status once written, the body
written by the program, and the record of what the library's file serving did. -/
structure ResponseWriter where
  header : Header
  status : Option Nat
  body : String
  served : Option Served
  deriving DecidableEq, Repr

/-- The response writer a request starts with. -/
def ResponseWriter.fresh : ResponseWriter := ⟨[], none, "", none⟩

/-- Go `w.Header().Set(key, value)`. -/
def ResponseWriter.SetHeader (w : ResponseWriter) (key value : String) : ResponseWriter :=
  { w with header := w.header.Set key value }

/-- Go `w.WriteHeader(code)`; a second call is ignored. -/
def ResponseWriter.WriteHeader (w : ResponseWriter) (code : Nat) : ResponseWriter :=
  if w.status.isSome then w else { w with status := some code }

/-- Go `w.Write(data)`; writes the status 200 first when none was written. -/
def ResponseWriter.Write (w : ResponseWriter) (data : String) : ResponseWriter :=
  let w1 := w.WriteHeader 200
  { w1 with body := w1.body ++ data }

/-- An `http.Handler`. -/
abbrev Handler := ResponseWriter → Request → FileSystem → ResponseWriter

/-! ## `net/http`: `StripPrefix`, `FileServer` and `ServeFile` -/

/-- Go `http.NotFound`. -/
def NotFound (w : ResponseWriter) (_r : Request) : ResponseWriter :=
  { w with served := some (Served.error 404) }

/-- Go `http.StripPrefix`. -/
def StripPrefix (pre : String) (h : Handler) : Handler :=
  fun w r fs =>
    let p := TrimPrefix r.URL.Path pre
    let rp := TrimPrefix r.URL.RawPath pre
    if p.length < r.URL.Path.length ∧
        (r.URL.RawPath = "" ∨ rp.length < r.URL.RawPath.length) then
      h w { r with URL := { r.URL with Path := p, RawPath := rp } } fs
    else NotFound w r

/-- The name `http.Dir(dir).Open(name)` opens:
`filepath.Join(dir, filepath.FromSlash(path.Clean("/" + name)))`. -/
def dirFullName (dir name : String) : String :=
  Join (if dir = "" then "." else dir) (Clean ("/" ++ name))

/-- Go `toHTTPError`: not-exist is 404, permission is 403, the rest 500. -/
def toHTTPError : StatResult → Nat
  | .notExist => 404
  | .permission => 403
  | _ => 500

/-- Go `serveFile` of `net/http`, up to the opening of the file: a request
path ending in `/index.html` is redirected to `./` before any lookup, a failed
`Open` is answered with the status of `toHTTPError`.  A regular file opened on
behalf of `http.ServeFile` (`redirect` is false) is streamed; in the other cases
(a directory, or the file server with its redirects to the canonical path) the
opened name is recorded. -/
def serveFile (w : ResponseWriter) (r : Request) (fs : FileSystem) (root name : String)
    (redirect : Bool) : ResponseWriter :=
  if HasSuffix r.URL.Path "/index.html" then
    { w with served := some Served.redirect }
  else
    match fs (dirFullName root name) with
    | .file =>
      if redirect then { w with served := some (Served.opened (dirFullName root name)) }
      else { w with served := some (Served.file (dirFullName root name)) }
    | .dir => { w with served := some (Served.opened (dirFullName root name)) }
    | e => { w with served := some (Served.error (toHTTPError e)) }

/-- Go `http.FileServer(http.Dir(root))`. -/
def FileServer (root : String) : Handler :=
  fun w r fs =>
    let upath := if HasPrefix r.URL.Path "/" then r.URL.Path else "/" ++ r.URL.Path
    serveFile w { r with URL := { r.URL with Path := upath } } fs root (Clean upath) true

/-- Go `filepath.Split`: the path up to and including its last `/`, and the
rest. -/
def Split (path : String) : String × String :=
  (String.mk (path.data.reverse.dropWhile (fun x => x ≠ '/')).reverse,
   String.mk (path.data.reverse.takeWhile (fun x => x ≠ '/')).reverse)

/-- Go `isSlashRune` of `net/http`: `/` or the backslash. -/
def isSlashRune (c : Char) : Bool := c = '/' || c = Char.ofNat 92

/-- The pieces of a list of bytes between the bytes that satisfy `f`. -/
def splitBy (f : Char → Bool) : List Char → List (List Char)
  | [] => [[]]
  | c :: cs =>
    if f c then [] :: splitBy f cs
    else
      match splitBy f cs with
      | [] => [[c]]
      | s :: ss => (c :: s) :: ss

/-- Go `strings.FieldsFunc`: the non-empty pieces between runs of bytes that
satisfy `f`. -/
def FieldsFunc (s : String) (f : Char → Bool) : List (List Char) :=
  (splitBy f s.data).filter (fun x => x ≠ [])

/-- Whether `sub` occurs in the list. -/
def containsChars (sub : List Char) : List Char → Bool
  | [] => sub.isPrefixOf []
  | c :: cs => sub.isPrefixOf (c :: cs) || containsChars sub cs

/-- Go `strings.Contains`. -/
def Contains (s sub : String) : Bool := containsChars sub.data s.data

/-- Go `containsDotDot` of `net/http`: some field between slashes is `..`. -/
def containsDotDot (v : String) : Bool :=
  if Contains v ".." = false then false
  else (FieldsFunc v isSlashRune).any (fun ent => ent = ['.', '.'])

/-- Go `http.ServeFile(w, r, name)`: a request path with a `..` element is
answered 400; otherwise `dir, file := filepath.Split(name)` and
`serveFile(w, r, Dir(dir), file, false)`. -/
def ServeFile (w : ResponseWriter) (r : Request) (fs : FileSystem) (name : String) :
    ResponseWriter :=
  if containsDotDot r.URL.Path then
    { w with served := some (Served.error 400) }
  else
    serveFile w r fs (Split name).1 (Split name).2 false

/-! ## `main.go` -/

/-- Function `fileExists`: `os.Stat` returned no error. -/
def fileExists (fs : FileSystem) (path : String) : Bool :=
  match fs path with
  | .file => true
  | .dir => true
  | _ => false

/-- Function `isDir`: `os.Stat` returned no error and the entry is a directory. -/
def isDir (fs : FileSystem) (path : String) : Bool :=
  match fs path with
  | .dir => true
  | _ => false

/-- Function `setCacheControl`. -/
def setCacheControl (w : ResponseWriter) (v : String) : ResponseWriter :=
  let w1 := w.SetHeader "Cache-Control" v
  if v = "no-store" then
    (w1.SetHeader "Pragma" "no-cache").SetHeader "Expires" "0"
  else w1

/-- Function `cacheControl`. -/
def cacheControl (h : Handler) (value : String) : Handler :=
  fun w r fs => h (setCacheControl w value) r fs

/-- Function `withCommonHeaders`. -/
def withCommonHeaders (h : Handler) : Handler :=
  fun w r fs =>
    h ((w.SetHeader "Server" "homebit-go-static").SetHeader "X-Content-Type-Options" "nosniff")
      r fs

/-- Variable `clientDir` of `main`. -/
def clientDir : String := "build/client"

/-- Variable `publicDir` of `main`. -/
def publicDir : String := "public"

/-- The handler of `/healthz`. -/
def healthzHandler : Handler :=
  fun w _ _ =>
    ((w.SetHeader "Content-Type" "application/json").WriteHeader 200).Write
      "\x7b\"status\":\"ok\"\x7d"

/-- The cleaned request path of the catch-all handler: `p := filepath.Clean(r.URL.Path)`,
with `/` rewritten to `/index.html`. -/
def spaPath (urlPath : String) : String :=
  let p := Clean urlPath
  if p = "/" then "/index.html" else p

/-- Variable `clientPath` of the catch-all handler. -/
def clientPath (urlPath : String) : String :=
  Join clientDir (TrimPrefix (spaPath urlPath) "/")

/-- Variable `publicPath` of the catch-all handler. -/
def publicPath (urlPath : String) : String :=
  Join publicDir (TrimPrefix (spaPath urlPath) "/")

/-- Variable `indexPath` of the catch-all handler. -/
def indexPath : String := Join clientDir "index.html"

/-- The catch-all handler of `/`. -/
def spaHandler : Handler :=
  fun w r fs =>
    -- Try client build first
    if fileExists fs (clientPath r.URL.Path) && !isDir fs (clientPath r.URL.Path) then
      ServeFile (setCacheControl w "no-store") r fs (clientPath r.URL.Path)
    -- Then try public directory
    else if fileExists fs (publicPath r.URL.Path) && !isDir fs (publicPath r.URL.Path) then
      ServeFile (setCacheControl w "no-store") r fs (publicPath r.URL.Path)
    -- Fallback to index.html for SPA routing
    else
      ServeFile (setCacheControl w "no-store") r fs indexPath

/-- The directory of the assets branch, `filepath.Join(clientDir, "assets")`. -/
def assetsDir : String := Join clientDir "assets"

/-- The handler of `/assets/`. -/
def assetsHandler : Handler :=
  cacheControl (StripPrefix "/assets/" (FileServer assetsDir)) "no-store"

/-- The three handlers registered on the mux. -/
inductive Route
  | healthz
  | assets
  | spa
  deriving DecidableEq, Repr

/-- The handler registered for a route. -/
def Route.handler : Route → Handler
  | .healthz => healthzHandler
  | .assets => assetsHandler
  | .spa => spaHandler

/-- The mux of `main`, for a given choice `dispatch` of the registered handler
(the pattern matching of `http.ServeMux` is taken as a parameter). -/
def mux (dispatch : Request → Route) : Handler :=
  fun w r fs => (dispatch r).handler w r fs

/-- The handler passed to `http.ListenAndServe`: `withCommonHeaders(mux)`. -/
def server (dispatch : Request → Route) : Handler :=
  withCommonHeaders (mux dispatch)

/-! ## Predicates of the specification -/

/-- The request path the file server of the assets branch sees: the path
without the prefix `/assets/`, with a leading `/` added when it has none. -/
def assetsURLPath (urlPath : String) : String :=
  if HasPrefix (TrimPrefix urlPath "/assets/") "/" then TrimPrefix urlPath "/assets/"
  else "/" ++ TrimPrefix urlPath "/assets/"

/-- The location the file server of the assets branch looks up. -/
def assetsLookup (urlPath : String) : String :=
  dirFullName assetsDir (Clean (assetsURLPath urlPath))

/-- The segments of a path: its pieces between `/`. -/
def segments : List Char → List (List Char)
  | [] => [[]]
  | c :: cs =>
    if c = '/' then [] :: segments cs
    else
      match segments cs with
      | [] => [[c]]
      | s :: ss => (c :: s) :: ss

/-- The path has a `..` segment. -/
def hasDotDot (p : String) : Prop := ['.', '.'] ∈ segments p.data

instance (p : String) : Decidable (hasDotDot p) := by
  unfold hasDotDot; infer_instance

/-- The path lies inside the root: it is the root or starts with the root
followed by `/`. -/
def inside (root path : String) : Prop :=
  path = root ∨ HasPrefix path (root ++ "/") = true

instance (root path : String) : Decidable (inside root path) := by
  unfold inside; infer_instance

/-! ## Sample inputs -/

/-- A `GET` request for the given path. -/
def getRequest (path : String) : Request := ⟨"GET", ⟨path, "", ""⟩, [], ""⟩

/-- A filesystem with nothing in it. -/
def emptyFS : FileSystem := fun _ => StatResult.notExist

/-- The scenario of the specification, extended: under `build/client` the
files `index.html` and `about.html` and the directories `media` and `static`;
under `public` the files `about.html`, `logo.png`, `media` and
`docs/index.html` and the directories `static` and `docs`. -/
def scenarioFS : FileSystem := fun q =>
  if q = "build/client/index.html" ∨ q = "build/client/about.html" ∨
      q = "public/about.html" ∨ q = "public/logo.png" ∨ q = "public/media" ∨
      q = "public/docs/index.html" then StatResult.file
  else if q = "build/client" ∨ q = "public" ∨ q = "build" ∨ q = "build/client/media" ∨
      q = "build/client/static" ∨ q = "public/static" ∨ q = "public/docs" then StatResult.dir
  else StatResult.notExist

/-! ## Shapes of cleaned paths -/

/-- A real path element: not empty, without `/`, and neither `.` nor `..`. -/
def Real (e : List Char) : Prop :=
  e ≠ [] ∧ '/' ∉ e ∧ e ≠ ['.'] ∧ e ≠ ['.', '.']

/-- The reversed buffer holding the relative path with the given elements, the
last element first. -/
def ur : List (List Char) → List Char
  | [] => []
  | [e] => e.reverse
  | e :: s :: ss => e.reverse ++ '/' :: ur (s :: ss)

/-- The reversed buffer holding the rooted path with the given elements, the
last element first. -/
def rr (stack : List (List Char)) : List Char := ur stack ++ ['/']

/-- The path made of the given elements, each preceded by `/`. -/
def slashed (segs : List (List Char)) : List Char :=
  segs.flatMap (fun e => '/' :: e)

/-! ## Theorems -/

/-! ### The loop of `Clean` -/

/-- The model of `Clean` on the table of Go's own test of `path.Clean`. -/
theorem clean_test_table :
    Clean "abc" = "abc" ∧ Clean "abc/def" = "abc/def" ∧ Clean "." = "." ∧ Clean ".." = ".." ∧
    Clean "../.." = "../.." ∧ Clean "../../abc" = "../../abc" ∧ Clean "/abc" = "/abc" ∧
    Clean "/" = "/" ∧ Clean "" = "." ∧ Clean "abc/" = "abc" ∧ Clean "a/b/c/" = "a/b/c" ∧
    Clean "./" = "." ∧ Clean "../" = ".." ∧ Clean "../../" = "../.." ∧ Clean "/abc/" = "/abc" ∧
    Clean "abc//def//ghi" = "abc/def/ghi" ∧ Clean "//abc" = "/abc" ∧ Clean "///abc" = "/abc" ∧
    Clean "//abc//" = "/abc" ∧ Clean "abc//" = "abc" ∧ Clean "abc/./def" = "abc/def" ∧
    Clean "/./abc/def" = "/abc/def" ∧ Clean "abc/." = "abc" ∧
    Clean "abc/def/ghi/../jkl" = "abc/def/jkl" ∧ Clean "abc/def/../ghi/../jkl" = "abc/jkl" ∧
    Clean "abc/def/.." = "abc" ∧ Clean "abc/def/../.." = "." ∧ Clean "/abc/def/../.." = "/" ∧
    Clean "abc/def/../../.." = ".." ∧ Clean "/abc/def/../../.." = "/" ∧
    Clean "abc/def/../../../ghi/jkl/../../../mno" = "../../mno" ∧ Clean "/../abc" = "/abc" ∧
    Clean "abc/./../def" = "def" ∧ Clean "abc//./../def" = "def" ∧
    Clean "abc/../../././../def" = "../../def" := by
  decide

theorem length_dropWhile_le {α : Type} (p : α → Bool) (l : List α) :
    (l.dropWhile p).length ≤ l.length := by
  induction l with
  | nil => simp
  | cons a l ih =>
    simp only [List.dropWhile_cons]
    split
    · simp only [List.length_cons]; omega
    · exact le_refl _

/-- Fuel beyond the length of the unread part does not change the result of the loop. -/
theorem cleanLoop_fuel (rooted : Bool) :
    ∀ (f1 f2 : Nat) (rest out : List Char) (dd : Nat),
      rest.length ≤ f1 → rest.length ≤ f2 →
      cleanLoop rooted f1 rest out dd = cleanLoop rooted f2 rest out dd := by
  intro f1
  induction f1 with
  | zero =>
    intro f2 rest out dd h1 _
    have : rest = [] := List.length_eq_zero.mp (Nat.le_zero.mp h1)
    subst this
    cases f2 <;> simp [cleanLoop]
  | succ f1 ih =>
    intro f2 rest out dd h1 h2
    cases rest with
    | nil => cases f2 <;> simp [cleanLoop]
    | cons c rest =>
      cases f2 with
      | zero => simp at h2
      | succ f2 =>
        simp only [List.length_cons, Nat.add_le_add_iff_right] at h1 h2
        have ht : rest.tail.length ≤ rest.length := by simp
        have hd : ((c :: rest).dropWhile (fun x => decide (x ≠ '/'))).length ≤ f1 ∧
            ((c :: rest).dropWhile (fun x => decide (x ≠ '/'))).length ≤ f2 ∨ c = '/' := by
          by_cases hc : c = '/'
          · exact Or.inr hc
          · left
            have : (c :: rest).dropWhile (fun x => decide (x ≠ '/')) =
                rest.dropWhile (fun x => decide (x ≠ '/')) := by
              simp [List.dropWhile_cons, hc]
            rw [this]
            have := length_dropWhile_le (fun x => decide (x ≠ '/')) rest
            omega
        simp only [cleanLoop]
        split_ifs with hc
        all_goals first
          | exact ih _ _ _ _ (by omega) (by omega)
          | (rcases hd with hd | hd
             · exact ih _ _ _ _ hd.1 hd.2
             · exact absurd hd hc)

theorem ur_cons_cons (e s : List Char) (ss : List (List Char)) :
    ur (e :: s :: ss) = e.reverse ++ '/' :: ur (s :: ss) := rfl

theorem rr_nil : rr [] = ['/'] := rfl

theorem rr_cons (e : List Char) (ss : List (List Char)) :
    rr (e :: ss) = e.reverse ++ (if ss = [] then ['/'] else '/' :: rr ss) := by
  cases ss with
  | nil => simp [rr, ur]
  | cons s ss => simp [rr, ur]

theorem rr_length_pos (stack : List (List Char)) : 1 ≤ (rr stack).length := by
  simp [rr]

theorem rr_length_cons (e : List Char) (ss : List (List Char)) (he : e ≠ []) :
    1 < (rr (e :: ss)).length := by
  rw [rr_cons]
  have : 0 < e.length := List.length_pos.mpr he
  split <;> simp <;> omega

theorem takeWhile_eq_nil_iff_sep (l : List Char) :
    l.takeWhile (fun x => decide (x ≠ '/')) = [] ↔ (l = [] ∨ l.head? = some '/') := by
  cases l with
  | nil => simp
  | cons a l =>
    by_cases h : a = '/'
    · simp [List.takeWhile_cons, h]
    · simp [List.takeWhile_cons, h]

theorem not_sep_of_mem_takeWhile (l : List Char) :
    '/' ∉ l.takeWhile (fun x => decide (x ≠ '/')) := by
  intro h
  have := List.mem_takeWhile_imp h
  simp at this

/-- The element copied by the default case of the loop is a real element. -/
theorem real_takeWhile (c : Char) (rest : List Char) (hc : c ≠ '/')
    (hdot : ¬ (c = '.' ∧ (rest = [] ∨ rest.head? = some '/')))
    (hdd : ¬ (c = '.' ∧ rest.head? = some '.' ∧
      (rest.tail = [] ∨ rest.tail.head? = some '/'))) :
    Real ((c :: rest).takeWhile (fun x => decide (x ≠ '/'))) := by
  have hcons : (c :: rest).takeWhile (fun x => decide (x ≠ '/')) =
      c :: rest.takeWhile (fun x => decide (x ≠ '/')) := by
    simp [List.takeWhile_cons, hc]
  refine ⟨?_, not_sep_of_mem_takeWhile _, ?_, ?_⟩
  · rw [hcons]; simp
  · rw [hcons]
    intro h
    injection h with h1 h2
    exact hdot ⟨h1, (takeWhile_eq_nil_iff_sep rest).mp h2⟩
  · rw [hcons]
    intro h
    injection h with h1 h2
    cases rest with
    | nil => simp at h2
    | cons d rest =>
      by_cases hd : d = '/'
      · simp [List.takeWhile_cons, hd] at h2
      · have h3 : d :: rest.takeWhile (fun x => decide (x ≠ '/')) = ['.'] := by
          simpa [List.takeWhile_cons, hd] using h2
        injection h3 with h4 h5
        exact hdd ⟨h1, by simp [h4], by simpa using (takeWhile_eq_nil_iff_sep rest).mp h5⟩

theorem backtrack_sep (dd : Nat) (l out : List Char) (hl : '/' ∉ l) (hdd : dd ≤ out.length) :
    backtrack dd (l ++ '/' :: out) = out := by
  induction l with
  | nil => simp [backtrack]
  | cons c l ih =>
    have hc : c ≠ '/' := fun h => hl (by simp [h])
    have hl2 : '/' ∉ l := fun h => hl (by simp [h])
    simp only [List.cons_append, backtrack]
    rw [if_pos]
    · exact ih hl2
    · refine ⟨?_, hc⟩
      simp; omega

theorem backtrack_stop (dd : Nat) (l out : List Char) (hl : '/' ∉ l) (hne : l ≠ [])
    (hdd : out.length = dd) : backtrack dd (l ++ out) = out := by
  induction l with
  | nil => exact absurd rfl hne
  | cons c l ih =>
    have hc : c ≠ '/' := fun h => hl (by simp [h])
    have hl2 : '/' ∉ l := fun h => hl (by simp [h])
    simp only [List.cons_append, backtrack]
    by_cases hnil : l = []
    · subst hnil
      simp [hdd]
    · rw [if_pos]
      · exact ih hl2 hnil
      · refine ⟨?_, hc⟩
        have : 0 < l.length := List.length_pos.mpr hnil
        simp; omega

theorem backtrack_rr (e : List Char) (ss : List (List Char)) (he : Real e) :
    backtrack 1 (rr (e :: ss)) = rr ss := by
  have hrev : '/' ∉ e.reverse := by simpa using he.2.1
  cases ss with
  | nil =>
    have : rr [e] = e.reverse ++ ['/'] := by simp [rr, ur]
    rw [this, rr_nil]
    exact backtrack_stop 1 _ _ hrev (by simpa using he.1) rfl
  | cons s ss =>
    have : rr (e :: s :: ss) = e.reverse ++ '/' :: rr (s :: ss) := by simp [rr, ur]
    rw [this]
    exact backtrack_sep 1 _ _ hrev (rr_length_pos _)

/-- Invariant of the loop on a rooted path: the buffer always holds `/` followed
by real elements joined with `/`. -/
theorem cleanLoop_rooted :
    ∀ (fuel : Nat) (rest : List Char) (stack : List (List Char)),
      (∀ e ∈ stack, Real e) →
      ∃ stack2 : List (List Char), (∀ e ∈ stack2, Real e) ∧
        cleanLoop true fuel rest (rr stack) 1 = rr stack2 := by
  intro fuel
  induction fuel with
  | zero => intro rest stack h; exact ⟨stack, h, by simp [cleanLoop]⟩
  | succ fuel ih =>
    intro rest stack h
    cases rest with
    | nil => exact ⟨stack, h, by simp [cleanLoop]⟩
    | cons c rest =>
      rw [cleanLoop]
      by_cases h1 : c = '/'
      · rw [if_pos h1]; exact ih rest stack h
      rw [if_neg h1]
      by_cases h2 : c = '.' ∧ (rest = [] ∨ rest.head? = some '/')
      · rw [if_pos h2]; exact ih rest stack h
      rw [if_neg h2]
      by_cases h3 : c = '.' ∧ rest.head? = some '.' ∧
          (rest.tail = [] ∨ rest.tail.head? = some '/')
      · rw [if_pos h3]
        by_cases h4 : 1 < (rr stack).length
        · rw [if_pos h4]
          cases stack with
          | nil => simp [rr_nil] at h4
          | cons e ss =>
            rw [backtrack_rr e ss (h e (by simp))]
            exact ih _ ss (fun x hx => h x (by simp [hx]))
        · rw [if_neg h4, if_neg (by simp)]
          exact ih _ stack h
      rw [if_neg h3]
      have hr := real_takeWhile c rest h1 h2 h3
      have e2 : (List.takeWhile (fun x => decide (x ≠ '/')) (c :: rest)).reverse ++
          addSlash true (rr stack) =
          rr (List.takeWhile (fun x => decide (x ≠ '/')) (c :: rest) :: stack) := by
        cases stack with
        | nil => simp [rr, ur, addSlash]
        | cons e ss =>
          have hlen := rr_length_cons e ss (h e (by simp)).1
          have : addSlash true (rr (e :: ss)) = '/' :: rr (e :: ss) := by
            unfold addSlash
            rw [if_pos]
            left
            exact ⟨rfl, by omega⟩
          rw [this]
          simp [rr, ur]
      rw [e2]
      exact ih _ _ (by
        intro x hx
        rcases List.mem_cons.mp hx with rfl | hx
        · exact hr
        · exact h x hx)

theorem slashed_nil : slashed [] = [] := rfl

theorem slashed_cons (e : List Char) (segs : List (List Char)) :
    slashed (e :: segs) = '/' :: (e ++ slashed segs) := by
  simp [slashed, List.flatMap_cons]

theorem slashed_append (a b : List (List Char)) :
    slashed (a ++ b) = slashed a ++ slashed b := by
  simp [slashed, List.flatMap_append]

theorem slashed_sep (segs : List (List Char)) :
    slashed segs = [] ∨ (slashed segs).head? = some '/' := by
  cases segs with
  | nil => left; rfl
  | cons e segs => right; simp [slashed_cons]

theorem takeWhile_elem (e T : List Char) (he : '/' ∉ e)
    (hT : T = [] ∨ T.head? = some '/') :
    (e ++ T).takeWhile (fun x => decide (x ≠ '/')) = e ∧
    (e ++ T).dropWhile (fun x => decide (x ≠ '/')) = T := by
  induction e with
  | nil =>
    rcases hT with rfl | hT
    · simp
    · cases T with
      | nil => simp
      | cons a T =>
        have : a = '/' := by simpa using hT
        subst this
        simp [List.takeWhile_cons, List.dropWhile_cons]
  | cons c e ih =>
    have hc : c ≠ '/' := fun h => he (by simp [h])
    have he2 : '/' ∉ e := fun h => he (by simp [h])
    have := ih he2
    have h : decide (c ≠ '/') = true := by simpa using hc
    rw [List.cons_append, List.takeWhile_cons, List.dropWhile_cons]
    simp only [h, if_true, this.1, this.2, and_self]

/-- One iteration of the loop on a real element: it is copied to the buffer. -/
theorem cleanLoop_elem (rooted : Bool) (fuel : Nat) (e T out : List Char) (dd : Nat)
    (he : Real e) (hT : T = [] ∨ T.head? = some '/') :
    cleanLoop rooted (fuel + 1) (e ++ T) out dd =
      cleanLoop rooted fuel T (e.reverse ++ addSlash rooted out) dd := by
  obtain ⟨hne, hsep, hdot, hdd⟩ := he
  cases e with
  | nil => exact absurd rfl hne
  | cons c e =>
    have hc : c ≠ '/' := fun h => hsep (by simp [h])
    have he2 : '/' ∉ e := fun h => hsep (by simp [h])
    have h2 : ¬ (c = '.' ∧ (e ++ T = [] ∨ (e ++ T).head? = some '/')) := by
      rintro ⟨rfl, h⟩
      cases e with
      | nil => exact hdot rfl
      | cons d e =>
        have hd : d ≠ '/' := fun h => he2 (by simp [h])
        simp [hd] at h
    have h3 : ¬ (c = '.' ∧ (e ++ T).head? = some '.' ∧
        ((e ++ T).tail = [] ∨ (e ++ T).tail.head? = some '/')) := by
      rintro ⟨rfl, h, h'⟩
      cases e with
      | nil =>
        rcases hT with rfl | hT
        · simp at h
        · simp [hT] at h
      | cons d e =>
        have hd : d = '.' := by simpa using h
        subst hd
        cases e with
        | nil => exact hdd rfl
        | cons x e =>
          have hx : x ≠ '/' := fun h => he2 (by simp [h])
          simp [hx] at h'
    have htd := takeWhile_elem (c :: e) T hsep hT
    rw [List.cons_append, cleanLoop, if_neg hc, if_neg h2, if_neg h3]
    rw [← List.cons_append, htd.1, htd.2]

theorem ur_ne_nil (e : List Char) (ss : List (List Char)) (he : e ≠ []) : ur (e :: ss) ≠ [] := by
  cases ss with
  | nil => simpa [ur] using he
  | cons s ss => simp [ur]

theorem ur_push (e : List Char) (done : List (List Char)) (hd : ∀ x ∈ done, Real x) :
    e.reverse ++ addSlash false (ur done) = ur (e :: done) := by
  cases done with
  | nil => simp [addSlash, ur]
  | cons d ds =>
    have hne : ur (d :: ds) ≠ [] := ur_ne_nil d ds (hd d (by simp)).1
    have : addSlash false (ur (d :: ds)) = '/' :: ur (d :: ds) := by
      unfold addSlash
      rw [if_pos]
      right
      exact ⟨rfl, by simpa [List.length_eq_zero] using hne⟩
    rw [this]
    rfl

/-- The loop on a relative path copies a run of real elements to the buffer. -/
theorem cleanLoop_slashed :
    ∀ (segs done : List (List Char)) (T : List Char) (f1 f2 : Nat),
      (∀ e ∈ segs, Real e) → (∀ e ∈ done, Real e) →
      (T = [] ∨ T.head? = some '/') →
      (slashed segs ++ T).length ≤ f1 → T.length ≤ f2 →
      cleanLoop false f1 (slashed segs ++ T) (ur done) 0 =
        cleanLoop false f2 T (ur (segs.reverse ++ done)) 0 := by
  intro segs
  induction segs with
  | nil =>
    intro done T f1 f2 _ _ _ h1 h2
    simpa [slashed_nil] using
      cleanLoop_fuel false f1 f2 T (ur done) 0 (by simpa [slashed_nil] using h1) h2
  | cons e segs ih =>
    intro done T f1 f2 hs hd hT h1 h2
    have he : Real e := hs e (by simp)
    have hlen : 0 < e.length := List.length_pos.mpr he.1
    rw [slashed_cons] at h1 ⊢
    simp only [List.cons_append, List.length_cons, List.append_assoc, List.length_append] at h1 ⊢
    obtain ⟨f, rfl⟩ : ∃ f, f1 = f + 2 := ⟨f1 - 2, by omega⟩
    have hT2 : slashed segs ++ T = [] ∨ (slashed segs ++ T).head? = some '/' := by
      cases segs with
      | nil => simpa [slashed_nil] using hT
      | cons s segs => right; simp [slashed_cons]
    rw [cleanLoop, if_pos rfl, cleanLoop_elem false f e _ _ 0 he hT2, ur_push e done hd]
    have := ih (e :: done) T f f2 (fun x hx => hs x (by simp [hx]))
      (by
        intro x hx
        rcases List.mem_cons.mp hx with rfl | hx
        · exact he
        · exact hd x hx)
      hT (by simp only [List.length_append]; omega) h2
    rw [this]
    simp

theorem ur_reverse (e0 : List Char) (segs : List (List Char)) :
    (ur (segs.reverse ++ [e0])).reverse = e0 ++ slashed segs := by
  induction segs using List.reverseRecOn with
  | nil => simp [ur, slashed_nil]
  | append_singleton segs s ih =>
    have : (segs ++ [s]).reverse ++ [e0] = s :: (segs.reverse ++ [e0]) := by simp
    rw [this]
    cases h : segs.reverse ++ [e0] with
    | nil => simp at h
    | cons x xs =>
      rw [ur_cons_cons, ← h, List.reverse_append, List.reverse_cons, ih, slashed_append,
        slashed_cons, slashed_nil]
      simp

theorem ur_stack_ne_nil (e0 : List Char) (segs : List (List Char)) (h0 : e0 ≠ []) :
    ur (segs.reverse ++ [e0]) ≠ [] := by
  intro h
  have := ur_reverse e0 segs
  rw [h] at this
  simp at this
  exact h0 this.1

/-- The function `Clean` on a relative path that starts with real elements: the loop reaches
the rest of the path with these elements in the buffer. -/
theorem cleanChars_relative_gen (e0 : List Char) (segs : List (List Char)) (T : List Char)
    (h0 : Real e0) (hs : ∀ e ∈ segs, Real e) (hT : T = [] ∨ T.head? = some '/') :
    cleanChars (e0 ++ (slashed segs ++ T)) =
      if cleanLoop false T.length T (ur (segs.reverse ++ [e0])) 0 = [] then ['.']
      else (cleanLoop false T.length T (ur (segs.reverse ++ [e0])) 0).reverse := by
  have hne : e0 ++ (slashed segs ++ T) ≠ [] := by
    intro h
    exact h0.1 (List.append_eq_nil.mp h).1
  have hhead : ¬ (e0 ++ (slashed segs ++ T)).head? = some '/' := by
    obtain ⟨c, e, rfl⟩ := List.exists_cons_of_ne_nil h0.1
    have hc : c ≠ '/' := fun h => h0.2.1 (by simp [h])
    simpa using hc
  obtain ⟨f, hf⟩ : ∃ f, (e0 ++ (slashed segs ++ T)).length = f + 1 :=
    ⟨(e0 ++ (slashed segs ++ T)).length - 1, by
      have := List.length_pos.mpr hne
      omega⟩
  have hlen : 0 < e0.length := List.length_pos.mpr h0.1
  have hT2 : slashed segs ++ T = [] ∨ (slashed segs ++ T).head? = some '/' := by
    cases segs with
    | nil => simpa [slashed_nil] using hT
    | cons s segs => right; simp [slashed_cons]
  have e1 : e0.reverse ++ addSlash false [] = ur [e0] := by simp [addSlash, ur]
  have key : cleanLoop false (e0 ++ (slashed segs ++ T)).length (e0 ++ (slashed segs ++ T)) [] 0 =
      cleanLoop false T.length T (ur (segs.reverse ++ [e0])) 0 := by
    rw [hf, cleanLoop_elem false f e0 _ _ 0 h0 hT2, e1]
    exact cleanLoop_slashed segs [e0] T f T.length hs
      (by intro x hx; simp at hx; subst hx; exact h0) hT
      (by simp only [List.length_append] at hf ⊢; omega) (Nat.le_refl _)
  unfold cleanChars
  rw [if_neg hne, if_neg hhead]
  simp only [key]

/-- A relative path made of real elements is its own `Clean`. -/
theorem cleanChars_relative (e0 : List Char) (segs : List (List Char))
    (h0 : Real e0) (hs : ∀ e ∈ segs, Real e) :
    cleanChars (e0 ++ slashed segs) = e0 ++ slashed segs := by
  have := cleanChars_relative_gen e0 segs [] h0 hs (Or.inl rfl)
  rw [List.append_nil] at this
  rw [this]
  have e3 : cleanLoop false ([] : List Char).length [] (ur (segs.reverse ++ [e0])) 0 =
      ur (segs.reverse ++ [e0]) := by
    simp [cleanLoop]
  rw [e3, if_neg (ur_stack_ne_nil e0 segs h0.1), ur_reverse]

/-- The function `Clean` drops the doubled slash between a relative path and a rooted one
made of real elements. -/
theorem cleanChars_relative_slashed (e0 : List Char) (segs segs2 : List (List Char))
    (h0 : Real e0) (hs : ∀ e ∈ segs, Real e) (hs2 : ∀ e ∈ segs2, Real e) :
    cleanChars (e0 ++ (slashed segs ++ '/' :: slashed segs2)) = e0 ++ slashed (segs ++ segs2) := by
  rw [cleanChars_relative_gen e0 segs ('/' :: slashed segs2) h0 hs (Or.inr rfl)]
  have e3 : cleanLoop false ('/' :: slashed segs2).length ('/' :: slashed segs2)
      (ur (segs.reverse ++ [e0])) 0 = ur ((segs ++ segs2).reverse ++ [e0]) := by
    rw [List.length_cons, cleanLoop, if_pos rfl]
    have := cleanLoop_slashed segs2 (segs.reverse ++ [e0]) [] (slashed segs2).length 0 hs2
      (by
        intro x hx
        rcases List.mem_append.mp hx with hx | hx
        · exact hs x (List.mem_reverse.mp hx)
        · simp at hx; subst hx; exact h0)
      (Or.inl rfl) (by simp) (Nat.le_refl _)
    rw [List.append_nil] at this
    rw [this]
    simp [cleanLoop]
  rw [e3, if_neg (ur_stack_ne_nil e0 _ h0.1), ur_reverse]

/-- The function `Clean` drops slashes at the end of a relative path made of real elements. -/
theorem cleanChars_relative_root (e0 : List Char) (segs : List (List Char))
    (h0 : Real e0) (hs : ∀ e ∈ segs, Real e) :
    cleanChars (e0 ++ (slashed segs ++ ['/', '/'])) = e0 ++ slashed segs := by
  rw [cleanChars_relative_gen e0 segs ['/', '/'] h0 hs (Or.inr rfl)]
  have e3 : cleanLoop false (['/', '/'] : List Char).length ['/', '/']
      (ur (segs.reverse ++ [e0])) 0 = ur (segs.reverse ++ [e0]) := by
    simp [cleanLoop]
  rw [e3, if_neg (ur_stack_ne_nil e0 _ h0.1), ur_reverse]

theorem rr_reverse (stack : List (List Char)) :
    (rr stack).reverse = if stack = [] then ['/'] else slashed stack.reverse := by
  induction stack with
  | nil => simp [rr, ur]
  | cons e ss ih =>
    rw [rr_cons, if_neg (List.cons_ne_nil _ _)]
    by_cases h : ss = []
    · subst h
      simp [slashed_cons, slashed_nil]
    · rw [if_neg h] at ih
      rw [if_neg h, List.reverse_append, List.reverse_cons, ih, List.reverse_reverse,
        List.reverse_cons, slashed_append, slashed_cons, slashed_nil]
      simp

/-- The result of `Clean` on a rooted path is `/` or a rooted path made of real elements. -/
theorem cleanChars_rooted (t : List Char) :
    cleanChars ('/' :: t) = ['/'] ∨
      ∃ (s0 : List Char) (segs : List (List Char)), Real s0 ∧ (∀ e ∈ segs, Real e) ∧
        cleanChars ('/' :: t) = slashed (s0 :: segs) := by
  obtain ⟨stack, hreal, hloop⟩ := cleanLoop_rooted ('/' :: t).length t [] (by simp)
  rw [rr_nil] at hloop
  have hne : rr stack ≠ [] := by simp [rr]
  have hc : cleanChars ('/' :: t) = (rr stack).reverse := by
    unfold cleanChars
    rw [if_neg (List.cons_ne_nil _ _)]
    simp only [List.head?_cons, if_true, List.tail_cons, hloop, hne, if_false]
  rw [hc, rr_reverse]
  by_cases h : stack = []
  · left; rw [if_pos h]
  · right
    rw [if_neg h]
    have hne2 : stack.reverse ≠ [] := by simpa using h
    obtain ⟨s0, segs, hs⟩ := List.exists_cons_of_ne_nil hne2
    refine ⟨s0, segs, ?_, ?_, by rw [hs]⟩
    · exact hreal s0 (List.mem_reverse.mp (by rw [hs]; simp))
    · intro e he
      exact hreal e (List.mem_reverse.mp (by rw [hs]; simp [he]))

/-! ### Segments -/

theorem segments_ne_nil (l : List Char) : segments l ≠ [] := by
  cases l with
  | nil => simp [segments]
  | cons c l =>
    rw [segments]
    split
    · simp
    · split <;> simp

theorem segments_elem (e : List Char) (rest : List Char) (he : '/' ∉ e) :
    segments (e ++ '/' :: rest) = e :: segments rest := by
  induction e with
  | nil => simp [segments]
  | cons c e ih =>
    have hc : c ≠ '/' := fun h => he (by simp [h])
    have he2 : '/' ∉ e := fun h => he (by simp [h])
    rw [List.cons_append, segments, if_neg hc, ih he2]

theorem segments_single (e : List Char) (he : '/' ∉ e) : segments e = [e] := by
  induction e with
  | nil => simp [segments]
  | cons c e ih =>
    have hc : c ≠ '/' := fun h => he (by simp [h])
    have he2 : '/' ∉ e := fun h => he (by simp [h])
    rw [segments, if_neg hc, ih he2]

/-- The segments of a path made of elements without `/` are these elements. -/
theorem segments_slashed (e0 : List Char) (segs : List (List Char)) (h0 : '/' ∉ e0)
    (hs : ∀ e ∈ segs, '/' ∉ e) : segments (e0 ++ slashed segs) = e0 :: segs := by
  induction segs generalizing e0 with
  | nil => simpa [slashed_nil] using segments_single e0 h0
  | cons s segs ih =>
    rw [slashed_cons, segments_elem e0 _ h0, ih s (hs s (by simp))
      (fun e he => hs e (by simp [he]))]

/-! ### From character lists to strings -/

theorem hasPrefix_slash (p : String) (h : HasPrefix p "/" = true) :
    ∃ t, p.data = '/' :: t := by
  unfold HasPrefix at h
  have h2 : ("/" : String).data = ['/'] := rfl
  rw [h2] at h
  cases hp : p.data with
  | nil => rw [hp] at h; simp [List.isPrefixOf] at h
  | cons c t =>
    rw [hp] at h
    have : '/' = c := by simpa [List.isPrefixOf] using h
    exact ⟨t, by rw [this]⟩

theorem real_index : Real "index.html".data := by
  unfold Real
  decide

/-- The cleaned path of the catch-all handler, for a rooted request path, is a
rooted path made of real elements. -/
theorem spaPath_rooted (p : String) (h : HasPrefix p "/" = true) :
    ∃ (s0 : List Char) (segs : List (List Char)), Real s0 ∧ (∀ e ∈ segs, Real e) ∧
      (spaPath p).data = slashed (s0 :: segs) := by
  obtain ⟨t, ht⟩ := hasPrefix_slash p h
  unfold spaPath
  by_cases hc : Clean p = "/"
  · simp only [hc, if_true]
    exact ⟨"index.html".data, [], real_index, by simp, rfl⟩
  · simp only [hc, if_false]
    have hd : (Clean p).data = cleanChars ('/' :: t) := by rw [← ht]; rfl
    rcases cleanChars_rooted t with h1 | ⟨s0, segs, h0, hs, h1⟩
    · exfalso
      apply hc
      have : (Clean p).data = ("/" : String).data := by rw [hd, h1]
      exact String.ext this
    · exact ⟨s0, segs, h0, hs, by rw [hd, h1]⟩

theorem trimPrefix_slashed (s : String) (s0 : List Char) (segs : List (List Char))
    (hs : s.data = slashed (s0 :: segs)) :
    (TrimPrefix s "/").data = s0 ++ slashed segs := by
  have h2 : ("/" : String).data = ['/'] := rfl
  unfold TrimPrefix HasPrefix
  rw [hs, h2, slashed_cons]
  simp [List.isPrefixOf]

/-- Joining a root made of real elements with a relative path made of real
elements appends the path to the root. -/
theorem join_relative (root rel : String) (r0 : List Char) (rsegs : List (List Char))
    (s0 : List Char) (segs : List (List Char))
    (hroot : root.data = r0 ++ slashed rsegs) (hr0 : Real r0) (hrs : ∀ e ∈ rsegs, Real e)
    (hrel : rel.data = s0 ++ slashed segs) (h0 : Real s0) (hs : ∀ e ∈ segs, Real e) :
    (Join root rel).data = r0 ++ slashed (rsegs ++ s0 :: segs) := by
  have hne : root ≠ "" := by
    intro h
    rw [h] at hroot
    have h3 : ("" : String).data = [] := rfl
    rw [h3] at hroot
    exact hr0.1 (List.append_eq_nil.mp hroot.symm).1
  have h2 : ("/" : String).data = ['/'] := rfl
  unfold Join
  rw [if_pos hne]
  show cleanChars (root ++ "/" ++ rel).data = _
  rw [String.data_append, String.data_append, hroot, hrel, h2]
  have e : r0 ++ slashed rsegs ++ ['/'] ++ (s0 ++ slashed segs) =
      r0 ++ slashed (rsegs ++ s0 :: segs) := by
    rw [slashed_append, slashed_cons]
    simp
  rw [e]
  exact cleanChars_relative r0 _ hr0 (by
    intro x hx
    rcases List.mem_append.mp hx with hx | hx
    · exact hrs x hx
    · rcases List.mem_cons.mp hx with rfl | hx
      · exact h0
      · exact hs x hx)

theorem clientDir_data : clientDir.data = "build".data ++ slashed ["client".data] := by
  decide

theorem publicDir_data : publicDir.data = "public".data ++ slashed [] := by
  decide

theorem real_build : Real "build".data := by
  unfold Real
  decide

theorem real_client : Real "client".data := by
  unfold Real
  decide

theorem real_public : Real "public".data := by
  unfold Real
  decide

theorem real_assets : Real "assets".data := by
  unfold Real
  decide

/-- A root followed by a rooted path lies inside the root. -/
theorem inside_of_data (root path : String) (s0 : List Char) (segs : List (List Char))
    (h : path.data = root.data ++ slashed (s0 :: segs)) : inside root path := by
  right
  unfold HasPrefix
  have h2 : ("/" : String).data = ['/'] := rfl
  rw [List.isPrefixOf_iff_prefix, String.data_append, h, h2, slashed_cons]
  exact ⟨s0 ++ slashed segs, by simp⟩

theorem not_hasDotDot_of_data (path : String) (r0 : List Char) (segs : List (List Char))
    (h : path.data = r0 ++ slashed segs) (hsep : '/' ∉ r0) (hr0 : r0 ≠ ['.', '.'])
    (hs : ∀ e ∈ segs, Real e) : ¬ hasDotDot path := by
  unfold hasDotDot
  rw [h, segments_slashed r0 segs hsep (fun e he => (hs e he).2.1)]
  intro hm
  rcases List.mem_cons.mp hm with hm | hm
  · exact hr0 hm.symm
  · exact (hs _ hm).2.2.2 rfl

/-- The client candidate of a rooted request path is the client directory
followed by the cleaned path. -/
theorem clientPath_data (p : String) (h : HasPrefix p "/" = true) :
    ∃ (s0 : List Char) (segs : List (List Char)), Real s0 ∧ (∀ e ∈ segs, Real e) ∧
      (spaPath p).data = slashed (s0 :: segs) ∧
      (clientPath p).data = "build".data ++ slashed ("client".data :: s0 :: segs) ∧
      (publicPath p).data = "public".data ++ slashed (s0 :: segs) := by
  obtain ⟨s0, segs, h0, hs, hp⟩ := spaPath_rooted p h
  refine ⟨s0, segs, h0, hs, hp, ?_, ?_⟩
  · unfold clientPath
    rw [join_relative clientDir _ "build".data ["client".data] s0 segs clientDir_data real_build
      (by intro e he; simp at he; subst he; exact real_client)
      (trimPrefix_slashed _ s0 segs hp) h0 hs]
    rfl
  · unfold publicPath
    rw [join_relative publicDir _ "public".data [] s0 segs publicDir_data real_public
      (by simp) (trimPrefix_slashed _ s0 segs hp) h0 hs]
    rfl

/-- The result of `Clean` on a rooted path is `/` or a rooted path made of real elements. -/
theorem clean_rooted_cases (p : String) (h : HasPrefix p "/" = true) :
    Clean p = "/" ∨
      ∃ (s0 : List Char) (segs : List (List Char)), Real s0 ∧ (∀ e ∈ segs, Real e) ∧
        (Clean p).data = slashed (s0 :: segs) := by
  obtain ⟨t, ht⟩ := hasPrefix_slash p h
  have hd : (Clean p).data = cleanChars ('/' :: t) := by rw [← ht]; rfl
  rcases cleanChars_rooted t with h1 | ⟨s0, segs, h0, hs, h1⟩
  · left
    have : (Clean p).data = ("/" : String).data := by rw [hd, h1]
    exact String.ext this
  · right
    exact ⟨s0, segs, h0, hs, by rw [hd, h1]⟩

/-- Joining a root made of real elements with the empty path gives the root. -/
theorem join_empty (root : String) (r0 : List Char) (rsegs : List (List Char))
    (hroot : root.data = r0 ++ slashed rsegs) (hr0 : Real r0) (hrs : ∀ e ∈ rsegs, Real e) :
    Join root (TrimPrefix "/" "/") = root := by
  have hne : root ≠ "" := by
    intro h
    rw [h] at hroot
    have h3 : ("" : String).data = [] := rfl
    rw [h3] at hroot
    exact hr0.1 (List.append_eq_nil.mp hroot.symm).1
  have ht : TrimPrefix "/" "/" = "" := by decide
  apply String.ext
  unfold Join
  rw [if_pos hne, ht]
  show cleanChars (root ++ "/" ++ "").data = _
  have h2 : ("/" : String).data = ['/'] := rfl
  have h3 : ("" : String).data = [] := rfl
  rw [String.data_append, String.data_append, hroot, h2, h3]
  have e : r0 ++ slashed rsegs ++ ['/'] ++ [] = r0 ++ (slashed rsegs ++ '/' :: slashed []) := by
    simp [slashed_nil]
  rw [e, cleanChars_relative_slashed r0 rsegs [] hr0 hrs (by simp)]
  simp

theorem not_hasDotDot_clientDir : ¬ hasDotDot clientDir := by decide

theorem not_hasDotDot_publicDir : ¬ hasDotDot publicDir := by decide

theorem sep_not_mem_build : '/' ∉ "build".data := by decide

theorem sep_not_mem_public : '/' ∉ "public".data := by decide

theorem clientDir_slashed (s0 : List Char) (segs : List (List Char)) :
    "build".data ++ slashed ("client".data :: s0 :: segs) =
      clientDir.data ++ slashed (s0 :: segs) := by
  rw [clientDir_data, slashed_cons "client".data, slashed_cons, slashed_cons, slashed_nil]
  simp

theorem real_cons {s0 : List Char} {segs : List (List Char)} {e0 : List Char}
    (he : Real e0) (h0 : Real s0) (hs : ∀ e ∈ segs, Real e) :
    ∀ e ∈ e0 :: s0 :: segs, Real e := by
  intro e hm
  rcases List.mem_cons.mp hm with rfl | hm
  · exact he
  · rcases List.mem_cons.mp hm with rfl | hm
    · exact h0
    · exact hs e hm

/-! ### `http.ServeFile` on a cleaned name -/

/-- The function `Clean` leaves a rooted path of one real element as it is. -/
theorem cleanChars_rooted_elem (e : List Char) (he : Real e) :
    cleanChars ('/' :: e) = '/' :: e := by
  have hlen : ('/' :: e).length = e.length + 1 := rfl
  have hloop : cleanLoop true (e.length + 1) e ['/'] 1 = e.reverse ++ ['/'] := by
    have := cleanLoop_elem true e.length e [] ['/'] 1 he (Or.inl rfl)
    rw [List.append_nil] at this
    rw [this]
    have hs : addSlash true ['/'] = ['/'] := by simp [addSlash]
    rw [hs]
    cases e <;> simp [cleanLoop]
  unfold cleanChars
  rw [if_neg (List.cons_ne_nil _ _)]
  simp only [List.head?_cons, if_true, List.tail_cons, hlen, hloop]
  simp

/-- The function `Clean` drops a tripled slash between a relative path and
further real elements. -/
theorem cleanChars_relative_slashed2 (e0 : List Char) (segs segs2 : List (List Char))
    (h0 : Real e0) (hs : ∀ e ∈ segs, Real e) (hs2 : ∀ e ∈ segs2, Real e) :
    cleanChars (e0 ++ (slashed segs ++ '/' :: '/' :: slashed segs2)) =
      e0 ++ slashed (segs ++ segs2) := by
  rw [cleanChars_relative_gen e0 segs ('/' :: '/' :: slashed segs2) h0 hs (Or.inr rfl)]
  have e3 : cleanLoop false ('/' :: '/' :: slashed segs2).length ('/' :: '/' :: slashed segs2)
      (ur (segs.reverse ++ [e0])) 0 = ur ((segs ++ segs2).reverse ++ [e0]) := by
    rw [List.length_cons, cleanLoop, if_pos rfl, List.length_cons, cleanLoop, if_pos rfl]
    have := cleanLoop_slashed segs2 (segs.reverse ++ [e0]) [] (slashed segs2).length 0 hs2
      (by
        intro x hx
        rcases List.mem_append.mp hx with hx | hx
        · exact hs x (List.mem_reverse.mp hx)
        · simp at hx; subst hx; exact h0)
      (Or.inl rfl) (by simp) (Nat.le_refl _)
    rw [List.append_nil] at this
    rw [this]
    simp [cleanLoop]
  rw [e3, if_neg (ur_stack_ne_nil e0 _ h0.1), ur_reverse]

/-- The two parts `filepath.Split` makes of a cleaned name with a slash. -/
theorem split_data (name : String) (e0 : List Char) (init : List (List Char))
    (last : List Char) (hname : name.data = e0 ++ slashed (init ++ [last]))
    (hlast : '/' ∉ last) :
    (Split name).1.data = e0 ++ slashed init ++ ['/'] ∧ (Split name).2.data = last := by
  have hrev : name.data.reverse = last.reverse ++ '/' :: (e0 ++ slashed init).reverse := by
    rw [hname, slashed_append, slashed_cons, slashed_nil]
    simp
  have h := takeWhile_elem last.reverse ('/' :: (e0 ++ slashed init).reverse)
    (by simpa using hlast) (Or.inr rfl)
  unfold Split
  constructor
  · show (List.dropWhile (fun x => decide (x ≠ '/')) name.data.reverse).reverse = _
    rw [hrev, h.2]
    simp
  · show (List.takeWhile (fun x => decide (x ≠ '/')) name.data.reverse).reverse = _
    rw [hrev, h.1]
    simp

/-- Splitting a cleaned name and opening the file part in the directory part,
as `http.ServeFile` does, opens the name itself. -/
theorem split_roundtrip (name : String) (e0 : List Char) (segs : List (List Char))
    (hname : name.data = e0 ++ slashed segs) (h0 : Real e0) (hs : ∀ e ∈ segs, Real e)
    (hne : segs ≠ []) :
    dirFullName (Split name).1 (Split name).2 = name := by
  rcases List.eq_nil_or_concat segs with h | ⟨init, last, h⟩
  · exact absurd h hne
  · rw [List.concat_eq_append] at h
    subst h
    have hlast : Real last := hs last (by simp)
    have hinit : ∀ e ∈ init, Real e := fun e he => hs e (by simp [he])
    obtain ⟨hd, hf⟩ := split_data name e0 init last hname hlast.2.1
    have hdne : (Split name).1 ≠ "" := by
      intro h
      rw [h] at hd
      have h3 : ("" : String).data = [] := rfl
      rw [h3] at hd
      simp at hd
    have h2 : ("/" : String).data = ['/'] := rfl
    apply String.ext
    unfold dirFullName Join
    rw [if_neg hdne, if_pos hdne]
    show cleanChars ((Split name).1 ++ "/" ++ Clean ("/" ++ (Split name).2)).data = _
    have hc : (Clean ("/" ++ (Split name).2)).data = '/' :: last := by
      show cleanChars ("/" ++ (Split name).2).data = _
      rw [String.data_append, h2, hf]
      exact cleanChars_rooted_elem last hlast
    rw [String.data_append, String.data_append, hd, h2, hc, hname]
    have e : e0 ++ slashed init ++ ['/'] ++ ['/'] ++ '/' :: last =
        e0 ++ (slashed init ++ '/' :: '/' :: slashed [last]) := by
      simp [slashed_cons, slashed_nil]
    rw [e, cleanChars_relative_slashed2 e0 init [last] h0 hinit
      (by intro x hx; simp at hx; subst hx; exact hlast)]

/-- The candidates of a request path that `net/http` can deliver are opened by
`http.ServeFile` under their own names. -/
theorem candidates_roundtrip (p : String) (h : HasPrefix p "/" = true ∨ p = "" ∨ p = "*") :
    dirFullName (Split (clientPath p)).1 (Split (clientPath p)).2 = clientPath p ∧
    dirFullName (Split (publicPath p)).1 (Split (publicPath p)).2 = publicPath p := by
  rcases h with h | h | h
  · obtain ⟨s0, segs, h0, hs, _, hc, hp⟩ := clientPath_data p h
    have hall : ∀ e ∈ s0 :: segs, Real e := by
      intro e hm
      rcases List.mem_cons.mp hm with rfl | hm
      · exact h0
      · exact hs e hm
    exact ⟨split_roundtrip _ _ _ hc real_build (real_cons real_client h0 hs) (by simp),
      split_roundtrip _ _ _ hp real_public hall (by simp)⟩
  · subst h; decide
  · subst h; decide

theorem index_roundtrip : dirFullName (Split indexPath).1 (Split indexPath).2 = indexPath := by
  decide

/-- What `http.ServeFile` records for a name it opens under its own name. -/
theorem serveFile_call_served (w : ResponseWriter) (r : Request) (fs : FileSystem)
    (name : String) (hname : dirFullName (Split name).1 (Split name).2 = name) :
    (ServeFile w r fs name).served =
      if containsDotDot r.URL.Path = true then some (Served.error 400)
      else if HasSuffix r.URL.Path "/index.html" = true then some Served.redirect
      else
        match fs name with
        | .file => some (Served.file name)
        | .dir => some (Served.opened name)
        | e => some (Served.error (toHTTPError e)) := by
  unfold ServeFile
  by_cases hd : containsDotDot r.URL.Path = true
  · rw [if_pos hd, if_pos hd]
  · rw [if_neg hd, if_neg hd]
    unfold serveFile
    by_cases hsuf : HasSuffix r.URL.Path "/index.html" = true
    · rw [if_pos hsuf, if_pos hsuf]
    · rw [if_neg hsuf, if_neg hsuf, hname]
      cases fs name <;> simp

/-- The call of `http.ServeFile` looks at the filesystem only at the name. -/
theorem serveFile_call_congr (w : ResponseWriter) (r : Request) (fs fs2 : FileSystem)
    (name : String) (hname : dirFullName (Split name).1 (Split name).2 = name)
    (hfs : fs name = fs2 name) :
    ServeFile w r fs name = ServeFile w r fs2 name := by
  unfold ServeFile serveFile
  rw [hname, hfs]

/-- Both candidates of a rooted request path lie inside their roots and have no
`..` segment. -/
theorem candidates_rooted (p : String) (h : HasPrefix p "/" = true) :
    inside clientDir (clientPath p) ∧ inside publicDir (publicPath p) ∧
    ¬ hasDotDot (clientPath p) ∧ ¬ hasDotDot (publicPath p) := by
  obtain ⟨s0, segs, h0, hs, _, hc, hp⟩ := clientPath_data p h
  have hall : ∀ e ∈ s0 :: segs, Real e := by
    intro e hm
    rcases List.mem_cons.mp hm with rfl | hm
    · exact h0
    · exact hs e hm
  refine ⟨?_, ?_, ?_, ?_⟩
  · exact inside_of_data clientDir _ s0 segs (by rw [hc, clientDir_slashed])
  · exact inside_of_data publicDir _ s0 segs (by rw [hp, publicDir_data, slashed_nil]; simp)
  · exact not_hasDotDot_of_data _ _ _ hc sep_not_mem_build (by decide)
      (real_cons real_client h0 hs)
  · exact not_hasDotDot_of_data _ _ _ hp sep_not_mem_public (by decide) hall

/-- The candidates computed without the rewrite of `/` to `/index.html`. -/
theorem joined_rooted (p : String) (h : HasPrefix p "/" = true) :
    inside clientDir (Join clientDir (TrimPrefix (Clean p) "/")) ∧
    inside publicDir (Join publicDir (TrimPrefix (Clean p) "/")) ∧
    ¬ hasDotDot (Join clientDir (TrimPrefix (Clean p) "/")) ∧
    ¬ hasDotDot (Join publicDir (TrimPrefix (Clean p) "/")) := by
  by_cases hc : Clean p = "/"
  · rw [hc, join_empty clientDir _ _ clientDir_data real_build
        (by intro e he; simp at he; subst he; exact real_client),
      join_empty publicDir _ _ publicDir_data real_public (by simp)]
    exact ⟨Or.inl rfl, Or.inl rfl, not_hasDotDot_clientDir, not_hasDotDot_publicDir⟩
  · have e : spaPath p = Clean p := by
      unfold spaPath
      simp only [hc, if_false]
    have := candidates_rooted p h
    unfold clientPath publicPath at this
    rw [e] at this
    exact this

/-- C2. Cleaning defends rooted paths: for every request path that begins with
`/`, the cleaned path begins with `/` and has no `..` segment; the client
candidate lies inside `build/client`, the public candidate inside `public`, and
neither has a `..` segment.  This holds for the candidates of the handler
(`clientPath`, `publicPath`, where `/` is first rewritten to `/index.html`) and
for the joins of the roots with the cleaned path itself. -/
theorem cleaning_defends_rooted_paths (p : String) (h : HasPrefix p "/" = true) :
    HasPrefix (Clean p) "/" = true ∧ ¬ hasDotDot (Clean p) ∧
    inside clientDir (clientPath p) ∧ inside publicDir (publicPath p) ∧
    ¬ hasDotDot (clientPath p) ∧ ¬ hasDotDot (publicPath p) ∧
    inside clientDir (Join clientDir (TrimPrefix (Clean p) "/")) ∧
    inside publicDir (Join publicDir (TrimPrefix (Clean p) "/")) ∧
    ¬ hasDotDot (Join clientDir (TrimPrefix (Clean p) "/")) ∧
    ¬ hasDotDot (Join publicDir (TrimPrefix (Clean p) "/")) := by
  obtain ⟨c1, c2, c3, c4⟩ := candidates_rooted p h
  obtain ⟨j1, j2, j3, j4⟩ := joined_rooted p h
  refine ⟨?_, ?_, c1, c2, c3, c4, j1, j2, j3, j4⟩
  · rcases clean_rooted_cases p h with hc | ⟨s0, segs, _, _, hc⟩
    · rw [hc]; decide
    · unfold HasPrefix
      have h2 : ("/" : String).data = ['/'] := rfl
      rw [hc, h2, slashed_cons]
      simp [List.isPrefixOf]
  · rcases clean_rooted_cases p h with hc | ⟨s0, segs, h0, hs, hc⟩
    · rw [hc]; decide
    · have hall : ∀ e ∈ s0 :: segs, Real e := by
        intro e hm
        rcases List.mem_cons.mp hm with rfl | hm
        · exact h0
        · exact hs e hm
      exact not_hasDotDot_of_data _ [] (s0 :: segs) (by rw [hc]; simp) (by simp) (by decide) hall

/-- C2, at a request path that tries to climb out of the root. -/
theorem cleaning_defends_rooted_paths_witness :
    HasPrefix "/a/../../etc/passwd" "/" = true ∧
    clientPath "/a/../../etc/passwd" = "build/client/etc/passwd" ∧
    (HasPrefix (Clean "/a/../../etc/passwd") "/" = true ∧
      ¬ hasDotDot (Clean "/a/../../etc/passwd") ∧
      inside clientDir (clientPath "/a/../../etc/passwd") ∧
      inside publicDir (publicPath "/a/../../etc/passwd") ∧
      ¬ hasDotDot (clientPath "/a/../../etc/passwd") ∧
      ¬ hasDotDot (publicPath "/a/../../etc/passwd") ∧
      inside clientDir (Join clientDir (TrimPrefix (Clean "/a/../../etc/passwd") "/")) ∧
      inside publicDir (Join publicDir (TrimPrefix (Clean "/a/../../etc/passwd") "/")) ∧
      ¬ hasDotDot (Join clientDir (TrimPrefix (Clean "/a/../../etc/passwd") "/")) ∧
      ¬ hasDotDot (Join publicDir (TrimPrefix (Clean "/a/../../etc/passwd") "/"))) :=
  ⟨by decide, by decide, cleaning_defends_rooted_paths "/a/../../etc/passwd" (by decide)⟩

/-- The catch-all handler calls `http.ServeFile` on one of its three locations,
after `setCacheControl`. -/
theorem spaHandler_call (w : ResponseWriter) (r : Request) (fs : FileSystem) :
    spaHandler w r fs =
      ServeFile (setCacheControl w "no-store") r fs (clientPath r.URL.Path) ∨
    spaHandler w r fs =
      ServeFile (setCacheControl w "no-store") r fs (publicPath r.URL.Path) ∨
    spaHandler w r fs = ServeFile (setCacheControl w "no-store") r fs indexPath := by
  unfold spaHandler
  split_ifs
  · left; rfl
  · right; left; rfl
  · right; right; rfl

/-- A file or directory `http.ServeFile` opens for a cleaned name is that name. -/
theorem serveFile_call_names (w : ResponseWriter) (r : Request) (fs : FileSystem)
    (name0 name : String) (hname : dirFullName (Split name0).1 (Split name0).2 = name0)
    (h : (ServeFile w r fs name0).served = some (Served.file name) ∨
      (ServeFile w r fs name0).served = some (Served.opened name)) : name = name0 := by
  rw [serveFile_call_served w r fs name0 hname] at h
  by_cases hd : containsDotDot r.URL.Path = true
  · rw [if_pos hd] at h
    simp at h
  · rw [if_neg hd] at h
    by_cases hsuf : HasSuffix r.URL.Path "/index.html" = true
    · rw [if_pos hsuf] at h
      simp at h
    · rw [if_neg hsuf] at h
      cases hfs : fs name0 <;> rw [hfs] at h <;> simp at h
      · exact h.symm
      · exact h.symm

theorem hasPrefix_of_data (root path : String) (s0 : List Char) (segs : List (List Char))
    (h : path.data = root.data ++ slashed (s0 :: segs)) :
    HasPrefix path (root ++ "/") = true := by
  unfold HasPrefix
  have h2 : ("/" : String).data = ['/'] := rfl
  rw [List.isPrefixOf_iff_prefix, String.data_append, h, h2, slashed_cons]
  exact ⟨s0 ++ slashed segs, by simp⟩

/-- The candidates of the handler, for a rooted path, start with their roots. -/
theorem candidates_prefix (p : String) (h : HasPrefix p "/" = true) :
    HasPrefix (clientPath p) "build/client/" = true ∧
    HasPrefix (publicPath p) "public/" = true := by
  obtain ⟨s0, segs, _, _, _, hc, hp⟩ := clientPath_data p h
  have e1 : clientDir ++ "/" = "build/client/" := by decide
  have e2 : publicDir ++ "/" = "public/" := by decide
  constructor
  · rw [← e1]
    exact hasPrefix_of_data clientDir _ s0 segs (by rw [hc, clientDir_slashed])
  · rw [← e2]
    exact hasPrefix_of_data publicDir _ s0 segs (by rw [hp, publicDir_data, slashed_nil]; simp)

/-- The catch-all handler looks at the filesystem only at its three locations. -/
theorem spaHandler_congr (w : ResponseWriter) (r : Request) (fs fs2 : FileSystem)
    (hpath : HasPrefix r.URL.Path "/" = true ∨ r.URL.Path = "" ∨ r.URL.Path = "*")
    (hc : fs (clientPath r.URL.Path) = fs2 (clientPath r.URL.Path))
    (hp : fs (publicPath r.URL.Path) = fs2 (publicPath r.URL.Path))
    (hi : fs indexPath = fs2 indexPath) :
    spaHandler w r fs = spaHandler w r fs2 := by
  obtain ⟨rc, rp⟩ := candidates_roundtrip r.URL.Path hpath
  unfold spaHandler fileExists isDir
  rw [hc, hp, serveFile_call_congr _ r fs fs2 _ rc hc, serveFile_call_congr _ r fs fs2 _ rp hp,
    serveFile_call_congr _ r fs fs2 _ index_roundtrip hi]

/-- C1. Traversal safety: for every request path that `net/http` can deliver (it
begins with `/`, or is empty, or is `*`) and that contains a `..` segment, every
location the catch-all handler stats or serves lies inside its root.  With
`rel = TrimPrefix(filepath.Clean(p), "/")` the joins of `build/client` and of
`public` with `rel` lie inside these roots; the candidates of the handler start
with `build/client/` and with `public/`; the fallback is
`build/client/index.html`; the handler looks at the filesystem at these three
locations only; and a file or directory that `http.ServeFile` opens for it is one
of the three. -/
theorem traversal_safety (p : String)
    (hpath : HasPrefix p "/" = true ∨ p = "" ∨ p = "*") (hdd : hasDotDot p) :
    inside clientDir (Join clientDir (TrimPrefix (Clean p) "/")) ∧
    inside publicDir (Join publicDir (TrimPrefix (Clean p) "/")) ∧
    HasPrefix (clientPath p) "build/client/" = true ∧
    HasPrefix (publicPath p) "public/" = true ∧
    indexPath = "build/client/index.html" ∧
    (∀ (w : ResponseWriter) (r : Request) (fs fs2 : FileSystem), r.URL.Path = p →
      fs (clientPath p) = fs2 (clientPath p) → fs (publicPath p) = fs2 (publicPath p) →
      fs indexPath = fs2 indexPath → spaHandler w r fs = spaHandler w r fs2) ∧
    (∀ (w : ResponseWriter) (r : Request) (fs : FileSystem) (name : String), r.URL.Path = p →
      ((spaHandler w r fs).served = some (Served.file name) ∨
        (spaHandler w r fs).served = some (Served.opened name)) →
      name = clientPath p ∨ name = publicPath p ∨ name = indexPath) := by
  have hroot : HasPrefix p "/" = true := by
    rcases hpath with h | h | h
    · exact h
    · subst h; exact absurd hdd (by decide)
    · subst h; exact absurd hdd (by decide)
  obtain ⟨j1, j2, _, _⟩ := joined_rooted p hroot
  obtain ⟨c1, c2⟩ := candidates_prefix p hroot
  refine ⟨j1, j2, c1, c2, by decide, ?_, ?_⟩
  · intro w r fs fs2 hr hc hp hi
    subst hr
    exact spaHandler_congr w r fs fs2 hpath hc hp hi
  · intro w r fs name hr hserved
    subst hr
    obtain ⟨rc, rp⟩ := candidates_roundtrip r.URL.Path hpath
    rcases spaHandler_call w r fs with h | h | h
    · rw [h] at hserved
      exact Or.inl (serveFile_call_names _ r fs _ name rc hserved)
    · rw [h] at hserved
      exact Or.inr (Or.inl (serveFile_call_names _ r fs _ name rp hserved))
    · rw [h] at hserved
      exact Or.inr (Or.inr (serveFile_call_names _ r fs _ name index_roundtrip hserved))

/-- C1, at `/../../etc/passwd`: the candidates are `build/client/etc/passwd` and
`public/etc/passwd`. -/
theorem traversal_safety_witness :
    HasPrefix "/../../etc/passwd" "/" = true ∧ hasDotDot "/../../etc/passwd" ∧
    clientPath "/../../etc/passwd" = "build/client/etc/passwd" ∧
    publicPath "/../../etc/passwd" = "public/etc/passwd" ∧
    HasPrefix (clientPath "/../../etc/passwd") "build/client/" = true ∧
    HasPrefix (publicPath "/../../etc/passwd") "public/" = true :=
  ⟨by decide, by decide, by decide, by decide,
    (traversal_safety "/../../etc/passwd" (Or.inl (by decide)) (by decide)).2.2.1,
    (traversal_safety "/../../etc/passwd" (Or.inl (by decide)) (by decide)).2.2.2.1⟩

/-! ### Headers -/

theorem lookup_filter_ne (h : Header) (key k : String) (hk : k ≠ key) :
    List.lookup k (h.filter (fun kv => decide (kv.1 ≠ key))) = List.lookup k h := by
  induction h with
  | nil => rfl
  | cons kv h ih =>
    obtain ⟨a, b⟩ := kv
    by_cases ha : a = key
    · subst ha
      have hb : (k == a) = false := by simpa using hk
      simp [List.filter_cons, List.lookup_cons, hb] at ih ⊢
      exact ih
    · by_cases hka : k = a
      · subst hka
        simp [List.filter_cons, List.lookup_cons, ha]
      · have hb : (k == a) = false := by simpa using hka
        simp [List.filter_cons, List.lookup_cons, ha, hb] at ih ⊢
        exact ih

theorem get_set_same (h : Header) (key value : String) :
    (h.Set key value).Get key = some value := by
  simp [Header.Set, Header.Get, List.lookup_cons]

theorem get_set_ne (h : Header) (key value k : String) (hk : k ≠ key) :
    (h.Set key value).Get k = h.Get k := by
  have hb : (k == key) = false := by simpa using hk
  unfold Header.Set Header.Get
  rw [List.lookup_cons, hb]
  exact lookup_filter_ne h key k hk

theorem setHeader_header (w : ResponseWriter) (key value : String) :
    (w.SetHeader key value).header = w.header.Set key value := rfl

theorem writeHeader_header (w : ResponseWriter) (code : Nat) :
    (w.WriteHeader code).header = w.header := by
  unfold ResponseWriter.WriteHeader
  split <;> rfl

theorem write_header (w : ResponseWriter) (data : String) :
    (w.Write data).header = w.header := by
  unfold ResponseWriter.Write
  exact writeHeader_header w 200

theorem lib_serveFile_header (w : ResponseWriter) (r : Request) (fs : FileSystem)
    (root name : String) (redirect : Bool) :
    (serveFile w r fs root name redirect).header = w.header := by
  unfold serveFile
  split
  · rfl
  · split
    · split <;> rfl
    · rfl
    · rfl

theorem serveFile_call_header (w : ResponseWriter) (r : Request) (fs : FileSystem)
    (name : String) : (ServeFile w r fs name).header = w.header := by
  unfold ServeFile
  split
  · rfl
  · exact lib_serveFile_header _ _ _ _ _ _

theorem fileServer_header (root : String) (w : ResponseWriter) (r : Request) (fs : FileSystem) :
    (FileServer root w r fs).header = w.header := by
  unfold FileServer
  exact lib_serveFile_header _ _ _ _ _ _

theorem stripPrefix_header (pre : String) (h : Handler)
    (hh : ∀ w r fs, (h w r fs).header = w.header)
    (w : ResponseWriter) (r : Request) (fs : FileSystem) :
    (StripPrefix pre h w r fs).header = w.header := by
  unfold StripPrefix
  simp only
  split
  · exact hh _ _ _
  · rfl

/-- The headers the catch-all handler leaves are those of `setCacheControl`. -/
theorem spaHandler_header (w : ResponseWriter) (r : Request) (fs : FileSystem) :
    (spaHandler w r fs).header = (setCacheControl w "no-store").header := by
  unfold spaHandler
  split_ifs <;> exact serveFile_call_header _ _ _ _

/-- The headers the assets handler leaves are those of `setCacheControl`. -/
theorem assetsHandler_header (w : ResponseWriter) (r : Request) (fs : FileSystem) :
    (assetsHandler w r fs).header = (setCacheControl w "no-store").header := by
  unfold assetsHandler cacheControl
  exact stripPrefix_header _ _ (fileServer_header assetsDir) _ _ _

/-- The headers the health check leaves. -/
theorem healthzHandler_header (w : ResponseWriter) (r : Request) (fs : FileSystem) :
    (healthzHandler w r fs).header = w.header.Set "Content-Type" "application/json" := by
  unfold healthzHandler
  rw [write_header, writeHeader_header, setHeader_header]

theorem setCacheControl_noStore_header (w : ResponseWriter) :
    (setCacheControl w "no-store").header =
      ((w.header.Set "Cache-Control" "no-store").Set "Pragma" "no-cache").Set "Expires" "0" := by
  unfold setCacheControl
  simp only [if_true]
  rfl

theorem setCacheControl_other_header (w : ResponseWriter) (v : String) (hv : v ≠ "no-store") :
    (setCacheControl w v).header = w.header.Set "Cache-Control" v := by
  unfold setCacheControl
  simp only [hv, if_false]
  rfl

/-- The three no-cache headers after `setCacheControl(w, "no-store")`. -/
theorem setCacheControl_noStore_get (w : ResponseWriter) :
    (setCacheControl w "no-store").header.Get "Cache-Control" = some "no-store" ∧
    (setCacheControl w "no-store").header.Get "Pragma" = some "no-cache" ∧
    (setCacheControl w "no-store").header.Get "Expires" = some "0" := by
  rw [setCacheControl_noStore_header]
  refine ⟨?_, ?_, ?_⟩
  · rw [get_set_ne _ _ _ _ (by decide), get_set_ne _ _ _ _ (by decide), get_set_same]
  · rw [get_set_ne _ _ _ _ (by decide), get_set_same]
  · rw [get_set_same]

/-- A key other than the three cache headers is left alone by `setCacheControl`. -/
theorem setCacheControl_get_other (w : ResponseWriter) (v k : String)
    (h1 : k ≠ "Cache-Control") (h2 : k ≠ "Pragma") (h3 : k ≠ "Expires") :
    (setCacheControl w v).header.Get k = w.header.Get k := by
  by_cases hv : v = "no-store"
  · subst hv
    rw [setCacheControl_noStore_header, get_set_ne _ _ _ _ h3, get_set_ne _ _ _ _ h2,
      get_set_ne _ _ _ _ h1]
  · rw [setCacheControl_other_header w v hv, get_set_ne _ _ _ _ h1]

/-- No registered handler touches a header other than `Content-Type` and the
three cache headers. -/
theorem handler_get_other (route : Route) (w : ResponseWriter) (r : Request) (fs : FileSystem)
    (k : String) (h0 : k ≠ "Content-Type") (h1 : k ≠ "Cache-Control") (h2 : k ≠ "Pragma")
    (h3 : k ≠ "Expires") :
    (route.handler w r fs).header.Get k = w.header.Get k := by
  cases route with
  | healthz =>
    show (healthzHandler w r fs).header.Get k = _
    rw [healthzHandler_header, get_set_ne _ _ _ _ h0]
  | assets =>
    show (assetsHandler w r fs).header.Get k = _
    rw [assetsHandler_header, setCacheControl_get_other w _ k h1 h2 h3]
  | spa =>
    show (spaHandler w r fs).header.Get k = _
    rw [spaHandler_header, setCacheControl_get_other w _ k h1 h2 h3]

theorem spa_client_branch (fs : FileSystem) (path : String)
    (h : fs path = StatResult.file) :
    (fileExists fs path && !isDir fs path) = true := by
  unfold fileExists isDir
  rw [h]
  rfl

theorem spa_skip_branch (fs : FileSystem) (path : String)
    (h : fs path ≠ StatResult.file) :
    (fileExists fs path && !isDir fs path) = false := by
  unfold fileExists isDir
  cases hfs : fs path <;> simp
  exact h hfs

/-- C3 (as stated, refuted). With `build/client/index.html` present, the request
`/index.html` is not answered with that file: `http.ServeFile` redirects a
request path ending in `/index.html` to `./`. -/
theorem client_index_redirects :
    clientPath "/index.html" = "build/client/index.html" ∧
    scenarioFS (clientPath "/index.html") = StatResult.file ∧
    (spaHandler ResponseWriter.fresh (getRequest "/index.html") scenarioFS).served =
      some Served.redirect ∧
    (spaHandler ResponseWriter.fresh (getRequest "/index.html") scenarioFS).served ≠
      some (Served.file "build/client/index.html") := by
  decide

/-- C3 (amended). Precedence invariant: for every request path `net/http` can
deliver and every state of the filesystem, if the client candidate is a regular
file, the catch-all handler calls `http.ServeFile` on exactly that file, whether
or not the public candidate exists; `http.ServeFile` streams that file, unless
the request path has a `..` element (it answers 400) or ends in `/index.html`
(it redirects to `./`). -/
theorem client_precedence (w : ResponseWriter) (r : Request) (fs : FileSystem)
    (hpath : HasPrefix r.URL.Path "/" = true ∨ r.URL.Path = "" ∨ r.URL.Path = "*")
    (hfile : fs (clientPath r.URL.Path) = StatResult.file) :
    spaHandler w r fs =
      ServeFile (setCacheControl w "no-store") r fs (clientPath r.URL.Path) ∧
    (spaHandler w r fs).served =
      if containsDotDot r.URL.Path = true then some (Served.error 400)
      else if HasSuffix r.URL.Path "/index.html" = true then some Served.redirect
      else some (Served.file (clientPath r.URL.Path)) := by
  have hcall : spaHandler w r fs =
      ServeFile (setCacheControl w "no-store") r fs (clientPath r.URL.Path) := by
    unfold spaHandler
    rw [spa_client_branch fs _ hfile]
    rfl
  refine ⟨hcall, ?_⟩
  rw [hcall, serveFile_call_served _ r fs _ (candidates_roundtrip r.URL.Path hpath).1, hfile]

/-- C3 (amended), with `about.html` present under `build/client` and under
`public`: the request `/about.html` is served from `build/client`. -/
theorem client_precedence_witness :
    clientPath "/about.html" = "build/client/about.html" ∧
    scenarioFS (clientPath "/about.html") = StatResult.file ∧
    scenarioFS (publicPath "/about.html") = StatResult.file ∧
    (spaHandler ResponseWriter.fresh (getRequest "/about.html") scenarioFS).served =
      some (Served.file "build/client/about.html") ∧
    (spaHandler ResponseWriter.fresh (getRequest "/about.html") scenarioFS).served =
      if containsDotDot (getRequest "/about.html").URL.Path = true then some (Served.error 400)
      else if HasSuffix (getRequest "/about.html").URL.Path "/index.html" = true then
        some Served.redirect
      else some (Served.file (clientPath (getRequest "/about.html").URL.Path)) :=
  ⟨by decide, by decide, by decide, by decide,
    (client_precedence ResponseWriter.fresh (getRequest "/about.html") scenarioFS
      (Or.inl (by decide)) (by decide)).2⟩

theorem not_inside_public_index : ¬ inside publicDir indexPath := by decide

/-- C4 (as stated, refuted). With `public/docs/index.html` present and nothing
at `build/client/docs/index.html`, the request `/docs/index.html` is not
answered with the public file: `http.ServeFile` redirects a request path ending
in `/index.html` to `./`. -/
theorem public_index_redirects :
    publicPath "/docs/index.html" = "public/docs/index.html" ∧
    scenarioFS (clientPath "/docs/index.html") = StatResult.notExist ∧
    scenarioFS (publicPath "/docs/index.html") = StatResult.file ∧
    (spaHandler ResponseWriter.fresh (getRequest "/docs/index.html") scenarioFS).served =
      some Served.redirect ∧
    (spaHandler ResponseWriter.fresh (getRequest "/docs/index.html") scenarioFS).served ≠
      some (Served.file "public/docs/index.html") := by
  decide

/-- C4 (amended). Public root is second: for every request path `net/http` can
deliver and every state of the filesystem, if the client candidate is not a
regular file (it does not exist, cannot be read, or is a directory) and the
public candidate is a regular file, the catch-all handler calls `http.ServeFile`
on exactly the public candidate, not on `index.html`; `http.ServeFile` streams
that file, unless the request path has a `..` element (it answers 400) or ends
in `/index.html` (it redirects to `./`).  For a request path that begins with
`/` the public candidate is not `build/client/index.html`. -/
theorem public_second (w : ResponseWriter) (r : Request) (fs : FileSystem)
    (hpath : HasPrefix r.URL.Path "/" = true ∨ r.URL.Path = "" ∨ r.URL.Path = "*")
    (hclient : fs (clientPath r.URL.Path) ≠ StatResult.file)
    (hpublic : fs (publicPath r.URL.Path) = StatResult.file) :
    spaHandler w r fs =
      ServeFile (setCacheControl w "no-store") r fs (publicPath r.URL.Path) ∧
    (spaHandler w r fs).served =
      (if containsDotDot r.URL.Path = true then some (Served.error 400)
      else if HasSuffix r.URL.Path "/index.html" = true then some Served.redirect
      else some (Served.file (publicPath r.URL.Path))) ∧
    (HasPrefix r.URL.Path "/" = true → publicPath r.URL.Path ≠ indexPath) := by
  have hcall : spaHandler w r fs =
      ServeFile (setCacheControl w "no-store") r fs (publicPath r.URL.Path) := by
    unfold spaHandler
    rw [spa_skip_branch fs _ hclient, spa_client_branch fs _ hpublic]
    rfl
  refine ⟨hcall, ?_, ?_⟩
  · rw [hcall, serveFile_call_served _ r fs _ (candidates_roundtrip r.URL.Path hpath).2,
      hpublic]
  · intro hroot heq
    have := (candidates_rooted r.URL.Path hroot).2.1
    rw [heq] at this
    exact not_inside_public_index this

/-- C4 (amended), with `public/logo.png` present and `build/client/logo.png`
absent, and with `public/media` a file and `build/client/media` a directory:
both requests are served from `public`. -/
theorem public_second_witness :
    scenarioFS (clientPath "/logo.png") = StatResult.notExist ∧
    (spaHandler ResponseWriter.fresh (getRequest "/logo.png") scenarioFS).served =
      some (Served.file "public/logo.png") ∧
    scenarioFS (clientPath "/media") = StatResult.dir ∧
    (spaHandler ResponseWriter.fresh (getRequest "/media") scenarioFS).served =
      some (Served.file "public/media") ∧
    spaHandler ResponseWriter.fresh (getRequest "/logo.png") scenarioFS =
      ServeFile (setCacheControl ResponseWriter.fresh "no-store") (getRequest "/logo.png")
        scenarioFS (publicPath (getRequest "/logo.png").URL.Path) ∧
    spaHandler ResponseWriter.fresh (getRequest "/media") scenarioFS =
      ServeFile (setCacheControl ResponseWriter.fresh "no-store") (getRequest "/media")
        scenarioFS (publicPath (getRequest "/media").URL.Path) :=
  ⟨by decide, by decide, by decide, by decide,
    (public_second ResponseWriter.fresh (getRequest "/logo.png") scenarioFS
      (Or.inl (by decide)) (by decide) (by decide)).1,
    (public_second ResponseWriter.fresh (getRequest "/media") scenarioFS
      (Or.inl (by decide)) (by decide) (by decide)).1⟩

/-- C5 (as stated, refuted). With nothing at `nope/index.html` under either root
and `build/client/index.html` present, the request `/nope/index.html` is not
answered with `index.html`: `http.ServeFile` redirects a request path ending in
`/index.html` to `./`. -/
theorem fallback_index_redirects :
    scenarioFS (clientPath "/nope/index.html") = StatResult.notExist ∧
    scenarioFS (publicPath "/nope/index.html") = StatResult.notExist ∧
    scenarioFS indexPath = StatResult.file ∧
    (spaHandler ResponseWriter.fresh (getRequest "/nope/index.html") scenarioFS).served =
      some Served.redirect ∧
    (spaHandler ResponseWriter.fresh (getRequest "/nope/index.html") scenarioFS).served ≠
      some (Served.file indexPath) := by
  decide

/-- C5 (amended). Fallback invariant: for every request and every state of the
filesystem, if neither candidate is a regular file (each does not exist, cannot
be read, or is a directory), the catch-all handler calls `http.ServeFile` on
`build/client/index.html`, without checking that it exists.  `http.ServeFile`
answers 400 when the request path has a `..` element, redirects to `./` when it
ends in `/index.html`, and otherwise opens `build/client/index.html`: a regular
file is streamed, a missing one is answered 404. -/
theorem fallback_invariant (w : ResponseWriter) (r : Request) (fs : FileSystem)
    (hclient : fs (clientPath r.URL.Path) ≠ StatResult.file)
    (hpublic : fs (publicPath r.URL.Path) ≠ StatResult.file) :
    spaHandler w r fs = ServeFile (setCacheControl w "no-store") r fs indexPath ∧
    indexPath = "build/client/index.html" ∧
    (spaHandler w r fs).served =
      if containsDotDot r.URL.Path = true then some (Served.error 400)
      else if HasSuffix r.URL.Path "/index.html" = true then some Served.redirect
      else
        match fs indexPath with
        | .file => some (Served.file indexPath)
        | .dir => some (Served.opened indexPath)
        | e => some (Served.error (toHTTPError e)) := by
  have hcall : spaHandler w r fs = ServeFile (setCacheControl w "no-store") r fs indexPath := by
    unfold spaHandler
    rw [spa_skip_branch fs _ hclient, spa_skip_branch fs _ hpublic]
    rfl
  refine ⟨hcall, by decide, ?_⟩
  rw [hcall, serveFile_call_served _ r fs _ index_roundtrip]

/-- C5 (amended): `/some/deep/app/route` and `/nonexistent`, absent from both
roots, and `/static`, a directory under both, are answered with
`build/client/index.html`; in a filesystem where not even `index.html` exists
the fallback is still chosen, and answered 404. -/
theorem fallback_invariant_witness :
    (spaHandler ResponseWriter.fresh (getRequest "/some/deep/app/route") scenarioFS).served =
      some (Served.file "build/client/index.html") ∧
    (spaHandler ResponseWriter.fresh (getRequest "/nonexistent") scenarioFS).served =
      some (Served.file "build/client/index.html") ∧
    scenarioFS (clientPath "/static") = StatResult.dir ∧
    scenarioFS (publicPath "/static") = StatResult.dir ∧
    (spaHandler ResponseWriter.fresh (getRequest "/static") scenarioFS).served =
      some (Served.file "build/client/index.html") ∧
    (spaHandler ResponseWriter.fresh (getRequest "/nonexistent") emptyFS).served =
      some (Served.error 404) ∧
    spaHandler ResponseWriter.fresh (getRequest "/some/deep/app/route") scenarioFS =
      ServeFile (setCacheControl ResponseWriter.fresh "no-store")
        (getRequest "/some/deep/app/route") scenarioFS indexPath ∧
    spaHandler ResponseWriter.fresh (getRequest "/static") scenarioFS =
      ServeFile (setCacheControl ResponseWriter.fresh "no-store")
        (getRequest "/static") scenarioFS indexPath ∧
    spaHandler ResponseWriter.fresh (getRequest "/nonexistent") emptyFS =
      ServeFile (setCacheControl ResponseWriter.fresh "no-store")
        (getRequest "/nonexistent") emptyFS indexPath :=
  ⟨by decide, by decide, by decide, by decide, by decide, by decide,
    (fallback_invariant ResponseWriter.fresh (getRequest "/some/deep/app/route") scenarioFS
      (by decide) (by decide)).1,
    (fallback_invariant ResponseWriter.fresh (getRequest "/static") scenarioFS
      (by decide) (by decide)).1,
    (fallback_invariant ResponseWriter.fresh (getRequest "/nonexistent") emptyFS
      (by decide) (by decide)).1⟩

/-- C7. Health check: on a response writer to which nothing was written yet,
the `/healthz` handler answers with status 200, the body `{"status":"ok"}` and
the header `Content-Type: application/json`, and its result is the same for
every request and every state of the filesystem. -/
theorem healthz_response (w : ResponseWriter) (r : Request) (fs : FileSystem)
    (hstatus : w.status = none) (hbody : w.body = "") :
    (healthzHandler w r fs).status = some 200 ∧
    (healthzHandler w r fs).body = "\x7b\"status\":\"ok\"\x7d" ∧
    (healthzHandler w r fs).header.Get "Content-Type" = some "application/json" ∧
    (healthzHandler w r fs).served = w.served ∧
    ∀ (r2 : Request) (fs2 : FileSystem), healthzHandler w r2 fs2 = healthzHandler w r fs := by
  have hs : (healthzHandler w r fs).status = some 200 := by
    simp [healthzHandler, ResponseWriter.Write, ResponseWriter.WriteHeader,
      ResponseWriter.SetHeader, hstatus]
  have hb : (healthzHandler w r fs).body = "\x7b\"status\":\"ok\"\x7d" := by
    simp [healthzHandler, ResponseWriter.Write, ResponseWriter.WriteHeader,
      ResponseWriter.SetHeader, hstatus, hbody]
  refine ⟨hs, hb, ?_, ?_, fun _ _ => rfl⟩
  · rw [healthzHandler_header, get_set_same]
  · simp [healthzHandler, ResponseWriter.Write, ResponseWriter.WriteHeader,
      ResponseWriter.SetHeader, hstatus]

/-- C7, on the response writer a request starts with. -/
theorem healthz_response_witness :
    (healthzHandler ResponseWriter.fresh (getRequest "/healthz") emptyFS).status = some 200 ∧
    (healthzHandler ResponseWriter.fresh (getRequest "/healthz") emptyFS).body =
      "\x7b\"status\":\"ok\"\x7d" ∧
    (healthzHandler ResponseWriter.fresh (getRequest "/healthz") emptyFS).header.Get
      "Content-Type" = some "application/json" ∧
    (healthzHandler ResponseWriter.fresh (getRequest "/healthz") emptyFS).served =
      ResponseWriter.fresh.served ∧
    ∀ (r2 : Request) (fs2 : FileSystem),
      healthzHandler ResponseWriter.fresh r2 fs2 =
        healthzHandler ResponseWriter.fresh (getRequest "/healthz") emptyFS :=
  healthz_response ResponseWriter.fresh (getRequest "/healthz") emptyFS rfl rfl

/-- C8. Common headers on every response: whichever registered handler the mux
chooses, and whatever it finds on the filesystem, the headers it leaves contain
`Server: homebit-go-static` and `X-Content-Type-Options: nosniff`;
`withCommonHeaders` sets both before it delegates, and no registered handler
changes either of them. -/
theorem common_headers (dispatch : Request → Route) (w : ResponseWriter) (r : Request)
    (fs : FileSystem) :
    (server dispatch w r fs).header.Get "Server" = some "homebit-go-static" ∧
    (server dispatch w r fs).header.Get "X-Content-Type-Options" = some "nosniff" ∧
    (∀ h : Handler, withCommonHeaders h w r fs =
      h ((w.SetHeader "Server" "homebit-go-static").SetHeader
        "X-Content-Type-Options" "nosniff") r fs) ∧
    (∀ (route : Route) (w2 : ResponseWriter) (r2 : Request) (fs2 : FileSystem),
      (route.handler w2 r2 fs2).header.Get "Server" = w2.header.Get "Server" ∧
      (route.handler w2 r2 fs2).header.Get "X-Content-Type-Options" =
        w2.header.Get "X-Content-Type-Options") := by
  have hpres : ∀ (route : Route) (w2 : ResponseWriter) (r2 : Request) (fs2 : FileSystem),
      (route.handler w2 r2 fs2).header.Get "Server" = w2.header.Get "Server" ∧
      (route.handler w2 r2 fs2).header.Get "X-Content-Type-Options" =
        w2.header.Get "X-Content-Type-Options" := by
    intro route w2 r2 fs2
    exact ⟨handler_get_other route w2 r2 fs2 _ (by decide) (by decide) (by decide) (by decide),
      handler_get_other route w2 r2 fs2 _ (by decide) (by decide) (by decide) (by decide)⟩
  refine ⟨?_, ?_, fun _ => rfl, hpres⟩
  · show ((dispatch r).handler _ r fs).header.Get "Server" = _
    rw [(hpres _ _ _ _).1, setHeader_header, setHeader_header,
      get_set_ne _ _ _ _ (by decide), get_set_same]
  · show ((dispatch r).handler _ r fs).header.Get "X-Content-Type-Options" = _
    rw [(hpres _ _ _ _).2, setHeader_header, get_set_same]

/-- C9. No-cache headers are set as a unit: the catch-all handler, in each of
its outcomes, and the assets handler call `setCacheControl(w, "no-store")`
before they hand over to the file serving, so `Cache-Control: no-store`,
`Pragma: no-cache` and `Expires: 0` are all set; `setCacheControl(w, v)` sets
`Cache-Control` to `v`, sets `Pragma` and `Expires` when `v` is `no-store`, and
leaves both as they were otherwise. -/
theorem no_cache_headers_unit (w : ResponseWriter) (r : Request) (fs : FileSystem)
    (v : String) :
    (∃ name, spaHandler w r fs = ServeFile (setCacheControl w "no-store") r fs name) ∧
    assetsHandler w r fs =
      StripPrefix "/assets/" (FileServer assetsDir) (setCacheControl w "no-store") r fs ∧
    ((spaHandler w r fs).header.Get "Cache-Control" = some "no-store" ∧
      (spaHandler w r fs).header.Get "Pragma" = some "no-cache" ∧
      (spaHandler w r fs).header.Get "Expires" = some "0") ∧
    ((assetsHandler w r fs).header.Get "Cache-Control" = some "no-store" ∧
      (assetsHandler w r fs).header.Get "Pragma" = some "no-cache" ∧
      (assetsHandler w r fs).header.Get "Expires" = some "0") ∧
    (setCacheControl w v).header.Get "Cache-Control" = some v ∧
    (v = "no-store" →
      (setCacheControl w v).header.Get "Pragma" = some "no-cache" ∧
      (setCacheControl w v).header.Get "Expires" = some "0") ∧
    (v ≠ "no-store" →
      (setCacheControl w v).header.Get "Pragma" = w.header.Get "Pragma" ∧
      (setCacheControl w v).header.Get "Expires" = w.header.Get "Expires") := by
  refine ⟨?_, rfl, ?_, ?_, ?_, ?_, ?_⟩
  · unfold spaHandler
    split_ifs
    · exact ⟨_, rfl⟩
    · exact ⟨_, rfl⟩
    · exact ⟨_, rfl⟩
  · rw [spaHandler_header]
    exact setCacheControl_noStore_get w
  · rw [assetsHandler_header]
    exact setCacheControl_noStore_get w
  · by_cases hv : v = "no-store"
    · subst hv
      exact (setCacheControl_noStore_get w).1
    · rw [setCacheControl_other_header w v hv, get_set_same]
  · intro hv
    subst hv
    exact (setCacheControl_noStore_get w).2
  · intro hv
    rw [setCacheControl_other_header w v hv]
    exact ⟨get_set_ne _ _ _ _ (by decide), get_set_ne _ _ _ _ (by decide)⟩

/-- C9, for `setCacheControl` with `no-store` and with another value, on a
response writer without headers. -/
theorem no_cache_headers_unit_witness :
    ((setCacheControl ResponseWriter.fresh "no-store").header.Get "Pragma" = some "no-cache" ∧
      (setCacheControl ResponseWriter.fresh "no-store").header.Get "Expires" = some "0") ∧
    ((setCacheControl ResponseWriter.fresh "public, max-age=31536000").header.Get "Pragma" =
        ResponseWriter.fresh.header.Get "Pragma" ∧
      (setCacheControl ResponseWriter.fresh "public, max-age=31536000").header.Get "Expires" =
        ResponseWriter.fresh.header.Get "Expires") :=
  ⟨(no_cache_headers_unit ResponseWriter.fresh (getRequest "/") emptyFS
      "no-store").2.2.2.2.2.1 rfl,
    (no_cache_headers_unit ResponseWriter.fresh (getRequest "/") emptyFS
      "public, max-age=31536000").2.2.2.2.2.2 (by decide)⟩

/-- C10 (as stated, refuted). The response to `/healthz` has no `Cache-Control`
header, and neither `Pragma` nor `Expires`. -/
theorem healthz_has_no_cache_control :
    (server (fun _ => Route.healthz) ResponseWriter.fresh (getRequest "/healthz")
      emptyFS).header.Get "Cache-Control" = none ∧
    (server (fun _ => Route.healthz) ResponseWriter.fresh (getRequest "/healthz")
      emptyFS).header.Get "Pragma" = none ∧
    (server (fun _ => Route.healthz) ResponseWriter.fresh (getRequest "/healthz")
      emptyFS).header.Get "Expires" = none := by
  decide

/-- C10 (amended). The health check is outside the cache policy: the `/healthz`
handler leaves `Cache-Control`, `Pragma` and `Expires` as it found them, so the
response to `/healthz` carries exactly `Content-Type` and the two common
headers, and none of the three cache headers. -/
theorem healthz_outside_cache_policy (w : ResponseWriter) (r : Request) (fs : FileSystem) :
    (healthzHandler w r fs).header.Get "Cache-Control" = w.header.Get "Cache-Control" ∧
    (healthzHandler w r fs).header.Get "Pragma" = w.header.Get "Pragma" ∧
    (healthzHandler w r fs).header.Get "Expires" = w.header.Get "Expires" ∧
    (withCommonHeaders healthzHandler ResponseWriter.fresh r fs).header =
      [("Content-Type", "application/json"), ("X-Content-Type-Options", "nosniff"),
        ("Server", "homebit-go-static")] ∧
    (withCommonHeaders healthzHandler ResponseWriter.fresh r fs).header.Get "Cache-Control" =
      none ∧
    (withCommonHeaders healthzHandler ResponseWriter.fresh r fs).header.Get "Pragma" = none ∧
    (withCommonHeaders healthzHandler ResponseWriter.fresh r fs).header.Get "Expires" =
      none := by
  have hh : (withCommonHeaders healthzHandler ResponseWriter.fresh r fs).header =
      [("Content-Type", "application/json"), ("X-Content-Type-Options", "nosniff"),
        ("Server", "homebit-go-static")] := by
    unfold withCommonHeaders
    rw [healthzHandler_header]
    decide
  refine ⟨?_, ?_, ?_, hh, ?_, ?_, ?_⟩
  · rw [healthzHandler_header, get_set_ne _ _ _ _ (by decide)]
  · rw [healthzHandler_header, get_set_ne _ _ _ _ (by decide)]
  · rw [healthzHandler_header, get_set_ne _ _ _ _ (by decide)]
  · rw [hh]; decide
  · rw [hh]; decide
  · rw [hh]; decide

theorem assetsDir_eq : assetsDir = "build/client/assets" := by decide

theorem assetsDir_data :
    assetsDir.data = "build".data ++ slashed ["client".data, "assets".data] := by
  decide

/-- Whatever the name, `http.Dir` opens the root or a path made of the root and
real elements. -/
theorem dirFullName_assets (name : String) :
    dirFullName assetsDir name = assetsDir ∨
      ∃ (s0 : List Char) (segs : List (List Char)),
        (dirFullName assetsDir name).data = assetsDir.data ++ slashed (s0 :: segs) := by
  have hne : assetsDir ≠ "" := by decide
  have h2 : ("/" : String).data = ['/'] := rfl
  have hreal : ∀ e ∈ ["client".data, "assets".data], Real e := by
    intro e he
    rcases List.mem_cons.mp he with rfl | he
    · exact real_client
    · rcases List.mem_cons.mp he with rfl | he
      · exact real_assets
      · exact absurd he (by simp)
  have hd : (dirFullName assetsDir name).data =
      cleanChars (assetsDir.data ++ ['/'] ++ cleanChars ('/' :: name.data)) := by
    unfold dirFullName Join
    rw [if_neg hne, if_pos hne]
    show cleanChars (assetsDir ++ "/" ++ Clean ("/" ++ name)).data = _
    rw [String.data_append, String.data_append, h2]
    rfl
  rcases cleanChars_rooted name.data with h1 | ⟨s0, segs, h0, hs, h1⟩
  · left
    apply String.ext
    rw [hd, h1, assetsDir_data]
    have e : "build".data ++ slashed ["client".data, "assets".data] ++ ['/'] ++ ['/'] =
        "build".data ++ (slashed ["client".data, "assets".data] ++ ['/', '/']) := by simp
    rw [e, cleanChars_relative_root _ _ real_build hreal]
  · right
    refine ⟨s0, segs, ?_⟩
    rw [hd, h1, assetsDir_data]
    have e : "build".data ++ slashed ["client".data, "assets".data] ++ ['/'] ++
        slashed (s0 :: segs) =
        "build".data ++ (slashed ["client".data, "assets".data] ++ '/' :: slashed (s0 :: segs)) := by
      simp
    rw [e, cleanChars_relative_slashed _ _ _ real_build hreal
      (by
        intro x hx
        rcases List.mem_cons.mp hx with rfl | hx
        · exact h0
        · exact hs x hx), slashed_append]
    simp

theorem inside_assets (name : String) : inside assetsDir (dirFullName assetsDir name) := by
  rcases dirFullName_assets name with h | ⟨s0, segs, h⟩
  · exact Or.inl h
  · exact inside_of_data _ _ s0 segs h

/-- A location inside the assets directory is neither `build/client/index.html`
nor inside `public`. -/
theorem inside_assets_apart (x : String) (h : inside assetsDir x) :
    x ≠ indexPath ∧ ¬ inside publicDir x := by
  have e1 : (assetsDir ++ "/").data = 'b' :: "uild/client/assets/".data := by decide
  have e2 : (publicDir ++ "/").data = 'p' :: "ublic/".data := by decide
  rcases h with h | h
  · subst h
    exact ⟨by decide, by decide⟩
  · constructor
    · intro hx
      subst hx
      revert h
      decide
    · rintro (hp | hp)
      · subst hp
        revert h
        decide
      · unfold HasPrefix at h hp
        rw [e1] at h
        rw [e2] at hp
        cases hx : x.data with
        | nil => rw [hx] at h; simp [List.isPrefixOf] at h
        | cons c t =>
          rw [hx] at h hp
          simp only [List.isPrefixOf, Bool.and_eq_true, beq_iff_eq] at h hp
          have := h.1.trans hp.1.symm
          exact absurd this (by decide)

/-- When the prefix can be stripped, the assets handler is the library's
`serveFile` on the stripped path, after `setCacheControl`. -/
theorem assetsHandler_eq (w : ResponseWriter) (r : Request) (fs : FileSystem)
    (hc : (TrimPrefix r.URL.Path "/assets/").length < r.URL.Path.length ∧
      (r.URL.RawPath = "" ∨
        (TrimPrefix r.URL.RawPath "/assets/").length < r.URL.RawPath.length)) :
    assetsHandler w r fs =
      serveFile (setCacheControl w "no-store")
        { r with URL := { r.URL with Path := assetsURLPath r.URL.Path,
                                     RawPath := TrimPrefix r.URL.RawPath "/assets/" } }
        fs assetsDir (Clean (assetsURLPath r.URL.Path)) true := by
  unfold assetsHandler cacheControl StripPrefix
  simp only
  rw [if_pos hc]
  rfl

/-- When the prefix cannot be stripped, the assets handler answers not-found. -/
theorem assetsHandler_not_stripped (w : ResponseWriter) (r : Request) (fs : FileSystem)
    (hc : ¬ ((TrimPrefix r.URL.Path "/assets/").length < r.URL.Path.length ∧
      (r.URL.RawPath = "" ∨
        (TrimPrefix r.URL.RawPath "/assets/").length < r.URL.RawPath.length))) :
    (assetsHandler w r fs).served = some (Served.error 404) := by
  unfold assetsHandler cacheControl StripPrefix
  simp only
  rw [if_neg hc]
  rfl

/-- What the assets handler records: not-found when the prefix cannot be
stripped or nothing exists at the location looked up, a redirect for a path
ending in `/index.html`, and otherwise the result of the lookup under the
assets directory. -/
theorem assetsHandler_served (w : ResponseWriter) (r : Request) (fs : FileSystem) :
    (HasSuffix (assetsURLPath r.URL.Path) "/index.html" = true ∧
      ((assetsHandler w r fs).served = some Served.redirect ∨
        (assetsHandler w r fs).served = some (Served.error 404))) ∨
    (HasSuffix (assetsURLPath r.URL.Path) "/index.html" = false ∧
      fs (assetsLookup r.URL.Path) = StatResult.notExist ∧
      (assetsHandler w r fs).served = some (Served.error 404)) ∨
    (HasSuffix (assetsURLPath r.URL.Path) "/index.html" = false ∧
      fs (assetsLookup r.URL.Path) ≠ StatResult.notExist ∧
      ((assetsHandler w r fs).served = some (Served.opened (assetsLookup r.URL.Path)) ∨
        (assetsHandler w r fs).served = some (Served.error 403) ∨
        (assetsHandler w r fs).served = some (Served.error 404) ∨
        (assetsHandler w r fs).served = some (Served.error 500))) := by
  by_cases hc : (TrimPrefix r.URL.Path "/assets/").length < r.URL.Path.length ∧
      (r.URL.RawPath = "" ∨
        (TrimPrefix r.URL.RawPath "/assets/").length < r.URL.RawPath.length)
  · rw [assetsHandler_eq w r fs hc]
    by_cases hs : HasSuffix (assetsURLPath r.URL.Path) "/index.html" = true
    · left
      refine ⟨hs, Or.inl ?_⟩
      unfold serveFile
      simp only
      rw [if_pos hs]
    · have hs2 : HasSuffix (assetsURLPath r.URL.Path) "/index.html" = false := by
        simpa using hs
      right
      have hl : dirFullName assetsDir (Clean (assetsURLPath r.URL.Path)) =
          assetsLookup r.URL.Path := rfl
      unfold serveFile
      simp only
      rw [if_neg hs, hl]
      cases hfs : fs (assetsLookup r.URL.Path) <;> simp [toHTTPError, hs2]
  · have h404 := assetsHandler_not_stripped w r fs hc
    by_cases hs : HasSuffix (assetsURLPath r.URL.Path) "/index.html" = true
    · exact Or.inl ⟨hs, Or.inr h404⟩
    · have hs2 : HasSuffix (assetsURLPath r.URL.Path) "/index.html" = false := by
        simpa using hs
      by_cases hfs : fs (assetsLookup r.URL.Path) = StatResult.notExist
      · exact Or.inr (Or.inl ⟨hs2, hfs, h404⟩)
      · exact Or.inr (Or.inr ⟨hs2, hfs, Or.inr (Or.inr (Or.inl h404))⟩)

/-- C6 (as stated, refuted). For the request path `/assets/index.html`, with no
file under `build/client/assets`, the assets handler does not answer not-found:
the file server redirects a path ending in `/index.html` before it looks
anything up. -/
theorem assets_index_redirects :
    HasPrefix "/assets/index.html" "/assets/" = true ∧
    assetsLookup "/assets/index.html" = "build/client/assets/index.html" ∧
    emptyFS (assetsLookup "/assets/index.html") = StatResult.notExist ∧
    (assetsHandler ResponseWriter.fresh (getRequest "/assets/index.html") emptyFS).served =
      some Served.redirect ∧
    (assetsHandler ResponseWriter.fresh (getRequest "/assets/index.html") emptyFS).served ≠
      some (Served.error 404) := by
  decide

/-- C6 (amended). No-fallback invariant of the assets branch: for every request
path under `/assets/`, the path without the prefix is looked up only under
`build/client/assets`: the location lies inside that directory, nothing is
streamed through `http.ServeFile`, and a file it opens is that location, which is
neither `build/client/index.html` nor inside `public`.  When nothing exists at
the location, the answer is not-found (404), unless the stripped path ends in
`/index.html`: such a path is answered with a redirect (or with not-found, when
the prefix cannot be stripped from the raw path) without any lookup. -/
theorem assets_no_fallback (w : ResponseWriter) (r : Request) (fs : FileSystem)
    (_hpre : HasPrefix r.URL.Path "/assets/" = true) :
    inside assetsDir (assetsLookup r.URL.Path) ∧
    (∀ name, (assetsHandler w r fs).served ≠ some (Served.file name)) ∧
    (∀ name, (assetsHandler w r fs).served = some (Served.opened name) →
      name = assetsLookup r.URL.Path ∧ name ≠ indexPath ∧ ¬ inside publicDir name) ∧
    (fs (assetsLookup r.URL.Path) = StatResult.notExist →
      HasSuffix (assetsURLPath r.URL.Path) "/index.html" = false →
      (assetsHandler w r fs).served = some (Served.error 404)) ∧
    (HasSuffix (assetsURLPath r.URL.Path) "/index.html" = true →
      (assetsHandler w r fs).served = some Served.redirect ∨
      (assetsHandler w r fs).served = some (Served.error 404)) := by
  have hin : inside assetsDir (assetsLookup r.URL.Path) := inside_assets _
  have hs := assetsHandler_served w r fs
  refine ⟨hin, ?_, ?_, ?_, ?_⟩
  · intro name hn
    rw [hn] at hs
    simp at hs
  · intro name hn
    rw [hn] at hs
    have : name = assetsLookup r.URL.Path := by
      simp at hs
      exact hs.2.2
    subst this
    exact ⟨rfl, inside_assets_apart _ hin⟩
  · intro hfs hsuf
    rcases hs with ⟨h1, _⟩ | ⟨_, _, h3⟩ | ⟨_, h2, _⟩
    · rw [hsuf] at h1; exact absurd h1 (by decide)
    · exact h3
    · exact absurd hfs h2
  · intro hsuf
    rcases hs with ⟨_, h⟩ | ⟨h1, _⟩ | ⟨h1, _⟩
    · exact h
    · rw [hsuf] at h1; exact absurd h1 (by decide)
    · rw [hsuf] at h1; exact absurd h1 (by decide)

/-- C6 (amended), at a missing asset and at `/assets/index.html`. -/
theorem assets_no_fallback_witness :
    HasPrefix (getRequest "/assets/missing.js").URL.Path "/assets/" = true ∧
    assetsLookup "/assets/missing.js" = "build/client/assets/missing.js" ∧
    (assetsHandler ResponseWriter.fresh (getRequest "/assets/missing.js") emptyFS).served =
      some (Served.error 404) ∧
    ((assetsHandler ResponseWriter.fresh (getRequest "/assets/index.html") emptyFS).served =
        some Served.redirect ∨
      (assetsHandler ResponseWriter.fresh (getRequest "/assets/index.html") emptyFS).served =
        some (Served.error 404)) :=
  ⟨by decide, by decide,
    (assets_no_fallback ResponseWriter.fresh (getRequest "/assets/missing.js") emptyFS
      (by decide)).2.2.2.1 (by decide) (by decide),
    (assets_no_fallback ResponseWriter.fresh (getRequest "/assets/index.html") emptyFS
      (by decide)).2.2.2.2 (by decide)⟩

end Homebit
